import Mathlib

/-!
# xcpdir: one-way directory mirroring with backup and deletion-sync

A shallow embedding of `functions.go`, `hidden_unix.go` and `xcpdir.go`
and theorems about it.  The embedding is of the build for UNIX-like platforms
(`//go:build !windows`): there `runtime.GOOS == "windows"` is false, so the
method `windowsShortcut` and `shortcut_windows.go` are never entered and are
not part of the embedding; `hidden_windows.go` belongs to the other build.

Go strings are modelled as lists of characters, one per byte.  The operating
system is modelled by a finite map from clean absolute path names to files,
directories and symbolic links, and by the walk of the kernel along the
elements of a path name: links are followed, `..` is the directory above the
place reached, path names and file names have a longest length.  There are no
permissions, no hard links and no other processes.  `os.MkdirAll`, `os.Remove`,
`os.RemoveAll` and `filepath.EvalSymlinks` follow their Go sources.
-/

namespace Xcp

/-! ## Strings and path names (`path/filepath`, UNIX flavour) -/

/-- A Go string: the list of its bytes. -/
abbrev Str := List Char

/-- The path separator of the platform. -/
def Separator : Char := '/'

/-- Loop of `filepath.Ext`: `rev` holds the bytes still to inspect, last byte
first; `acc` the bytes already passed.  Stops at a separator (no extension) or
at the first dot met (the extension starts there). -/
def extScan : List Char → Str → Str
  | [], _ => []
  | c :: rest, acc =>
    if c = Separator then []
    else if c = '.' then c :: acc
    else extScan rest (c :: acc)

/-- `filepath.Ext(path)`: the suffix beginning at the final dot in the final
element of `path`; empty if there is no dot. -/
def Ext (path : Str) : Str := extScan path.reverse []

/-- `strings.Split(path, "/")`: the pieces between separators. -/
def splitSep : Str → List Str
  | [] => [[]]
  | c :: cs =>
    if c = Separator then [] :: splitSep cs
    else match splitSep cs with
      | [] => [[c]]
      | h :: t => (c :: h) :: t

/-- One element of a path met by `filepath.Clean`; `stack` holds the elements
kept so far, last first.  Empty elements and `.` are dropped; `..` removes the
element before it, is dropped at the root, and is kept at the start of a
relative path. -/
def cleanStep (rooted : Bool) (stack : List Str) (elem : Str) : List Str :=
  if elem = [] ∨ elem = ['.'] then stack
  else if elem = ['.', '.'] then
    match stack with
    | [] => if rooted then [] else [elem]
    | top :: rest => if top = ['.', '.'] then elem :: stack else rest
  else elem :: stack

/-- `strings.Join(elems, "/")`. -/
def joinSep : List Str → Str
  | [] => []
  | [e] => e
  | e :: es => e ++ Separator :: joinSep es

/-- `filepath.Clean(path)`: the shortest path name equivalent to `path` by
purely lexical processing; `.` for the empty result. -/
def Clean (path : Str) : Str :=
  let rooted := path.head? = some Separator
  let body := joinSep ((splitSep path).foldl (cleanStep rooted) []).reverse
  if rooted then Separator :: body
  else if body = [] then ['.'] else body

/-- The clean absolute path name with the given elements. -/
def absPath (cs : List Str) : Str := Separator :: joinSep cs

/-- `filepath.Join(elem...)`: empty elements in front are ignored, the rest is
joined with separators and cleaned; empty when all elements are empty. -/
def Join : List Str → Str
  | [] => []
  | e :: es => if e = [] then Join es else Clean (joinSep (e :: es))

/-- Loop of `filepath.Split`: `rev` holds the bytes still to inspect, last byte
first. -/
def splitScan : List Char → Str → Str × Str
  | [], acc => ([], acc)
  | c :: rest, acc =>
    if c = Separator then ((c :: rest).reverse, acc)
    else splitScan rest (c :: acc)

/-- `filepath.Split(path)`: the directory part, up to and including the final
separator, and the file name after it. -/
def Split (path : Str) : Str × Str := splitScan path.reverse []

/-- The Go slice expression `s[n:]`; `none` is the run-time panic
"slice bounds out of range". -/
def sliceFrom (s : Str) (n : Nat) : Option Str :=
  if n ≤ s.length then some (s.drop n) else none

/-- Loop of `appendInt`-style zero padding: digits of `n`, at least `width` of them. -/
def padInt (width n : Nat) : Str :=
  let ds := Nat.toDigits 10 n
  List.replicate (width - ds.length) '0' ++ ds

/-- A `time.Time` as `os.Stat` returns it: the instant (nanoseconds since the
epoch), and its calendar date and clock in the local zone, which `Format` prints. -/
structure Time where
  instant : Int
  year : Int
  month : Nat
  day : Nat
  hour : Nat
  minute : Nat
  second : Nat
deriving DecidableEq, Repr

/-- The year as layout `2006` prints it: four digits at least, a minus
sign in front of a negative year. -/
def formatYear (y : Int) : Str :=
  if y < 0 then '-' :: padInt 4 (-y).toNat else padInt 4 y.toNat

/-- The text `YYYY-MM-DD_HHMMSS` of a time. -/
def Time.stamp (t : Time) : Str :=
  formatYear t.year ++ '-' :: padInt 2 t.month ++ '-' :: padInt 2 t.day
    ++ '_' :: padInt 2 t.hour ++ padInt 2 t.minute ++ padInt 2 t.second

/-- `t.Format("_2006-01-02_150405")`: a literal underscore, then the long year,
month, day, a literal underscore, hour (24h), minute and second, zero padded. -/
def Time.Format (t : Time) : Str := '_' :: t.stamp

/-- `t.Compare(u) == 0`: the two times are the same instant. -/
def Time.sameInstant (t u : Time) : Bool := t.instant == u.instant

/-! ## `functions.go` -/

/-- `splitBase(base)`: split a base name into name and extension.
```go
ext := filepath.Ext(base)
if ext == base { return ext, "" }
return base[:len(base)-len(ext)], ext
``` -/
def splitBase (base : Str) : Str × Str :=
  let ext := Ext base
  if ext = base then (ext, [])
  else (base.take (base.length - ext.length), ext)

/-- `backupBaseName(base, modTime)`:
```go
fname, ext := splitBase(base)
return fname + modTime.Format("_2006-01-02_150405") + ext
``` -/
def backupBaseName (base : Str) (modTime : Time) : Str :=
  let (fname, ext) := splitBase base
  fname ++ modTime.Format ++ ext

/-- The error numbers the modelled system calls fail with. -/
inductive Errno where
  | ENOENT | ENOTDIR | EISDIR | ENOTEMPTY | ENAMETOOLONG | EINVAL | EEXIST | ELOOP | EBUSY
deriving DecidableEq, Repr

/-- The operation named in an `*os.PathError`. -/
inductive Op where
  | stat | lstat | open | mkdir | read | write | chtimes | remove | removeAll | unlinkat
deriving DecidableEq, Repr

/-- A Go `error` value.  `sys` is an `*os.PathError`; `errno` a bare
`syscall.Errno`; `tooManyLinks` is `errors.New("EvalSymlinks: too many links")`;
`notDirectory src` is `fmt.Errorf("%s is not a directory", src)`;
`wrapped line e` is what `newError(e)` called at `line` of `xcpdir.go` returns. -/
inductive Error where
  | sys (op : Op) (path : Str) (errno : Errno)
  | errno (errno : Errno)
  | tooManyLinks
  | notDirectory (src : Str)
  | wrapped (line : Nat) (e : Error)
deriving DecidableEq, Repr

/-- Equality of results of fallible calls is decidable. -/
instance instDecidableEqExcept {ε α : Type} [DecidableEq ε] [DecidableEq α] :
    DecidableEq (Except ε α)
  | .ok a, .ok b => if h : a = b then isTrue (by rw [h]) else isFalse (by intro h1; cases h1; exact h rfl)
  | .error a, .error b =>
    if h : a = b then isTrue (by rw [h]) else isFalse (by intro h1; cases h1; exact h rfl)
  | .ok _, .error _ => isFalse (by intro h; cases h)
  | .error _, .ok _ => isFalse (by intro h; cases h)

/-- `newError(err)` called at line `line`: `nil` stays `nil`, an error is
wrapped with the position of the caller. -/
def newError (line : Nat) : Option Error → Option Error
  | none => none
  | some e => some (Error.wrapped line e)

/-- A file, a directory or a symbolic link; this is also what `os.Stat` and
`os.Lstat` report of it (`os.Stat` never reports a link: it follows it). -/
inductive Node where
  | file (content : List Nat) (modTime : Time)
  | dir (modTime : Time)
  | link (target : Str) (modTime : Time)
deriving DecidableEq, Repr

/-- `info.IsDir()`. -/
def Node.IsDir : Node → Bool
  | .file _ _ => false
  | .dir _ => true
  | .link _ _ => false

/-- `info.Size()`: the length of a file in bytes (of a directory: a system
dependent number, one block here; of a link: the length of its target). -/
def Node.Size : Node → Nat
  | .file content _ => content.length
  | .dir _ => 4096
  | .link target _ => target.length

/-- `info.ModTime()`. -/
def Node.ModTime : Node → Time
  | .file _ t => t
  | .dir t => t
  | .link _ t => t

/-- The file system: nodes by clean absolute path name (the root directory is
the node `/`), the elements of the working directory, the longest path name
and the longest file name the system accepts (`PATH_MAX`, `NAME_MAX`: a call
given a longer one fails with `ENAMETOOLONG`), and the wall clock, which stands
still during a run.  The modification time of a directory is not touched when
entries are made or removed in it.  There are no permissions. -/
structure FS where
  nodes : List (Str × Node)
  cwd : List Str
  pathMax : Nat
  nameMax : Nat
  now : Time
deriving DecidableEq, Repr

/-- The node stored under a clean absolute path name. -/
def FS.find (fs : FS) (key : Str) : Option Node :=
  (fs.nodes.find? (fun kn => kn.1 = key)).map (fun kn => kn.2)

/-- Store a node under a clean absolute path name, replacing what was there. -/
def FS.put (fs : FS) (key : Str) (n : Node) : FS :=
  { fs with nodes := fs.nodes.filter (fun kn => ¬ kn.1 = key) ++ [(key, n)] }

/-- How one pass along the elements of a path name ends: at a node, with an
error, or at a symbolic link that has to be followed (from the directory `cur`,
with the elements `rest` still to go after the link's target). -/
inductive Walked where
  | found (cur : List Str) (n : Node)
  | failed (cur : List Str) (e : Errno)
  | jump (cur : List Str) (target : Str) (rest : List Str)
deriving DecidableEq, Repr

/-- One pass of the kernel's walk along the elements of a path name, starting
in the directory with elements `cur`.  Empty elements and `.` stay, `..` goes
up, a directory is entered, a file must be the last element, a link is
reported for following unless it is the last element and `follow` is off. -/
def FS.pass (fs : FS) (follow : Bool) : List Str → List Str → Walked
  | cur, [] =>
    match fs.find (absPath cur) with
    | some n => .found cur n
    | none => .failed cur .ENOENT
  | cur, c :: rest =>
    if c = [] ∨ c = ['.'] then fs.pass follow cur rest
    else if c = ['.', '.'] then fs.pass follow cur.dropLast rest
    else if fs.nameMax < c.length then .failed (cur ++ [c]) .ENAMETOOLONG
    else
      match fs.find (absPath (cur ++ [c])) with
      | none => .failed (cur ++ [c]) .ENOENT
      | some (.dir _) => fs.pass follow (cur ++ [c]) rest
      | some (.file content t) =>
        if rest = [] then .found (cur ++ [c]) (.file content t)
        else .failed (cur ++ [c]) .ENOTDIR
      | some (.link target t) =>
        if rest = [] ∧ follow = false then .found (cur ++ [c]) (.link target t)
        else .jump cur target rest

/-- The kernel's walk with at most `k - 1` symbolic links followed: the
elements of the place reached (no link among them) and the node there. -/
def FS.lookup (fs : FS) (follow : Bool) : Nat → List Str → List Str →
    Except (List Str × Errno) (List Str × Node)
  | 0, cur, _ => .error (cur, .ELOOP)
  | k + 1, cur, todo =>
    match fs.pass follow cur todo with
    | .found c n => .ok (c, n)
    | .failed c e => .error (c, e)
    | .jump c target rest =>
      if target = [] then .error (c, .ENOENT)
      else
        fs.lookup follow k (if target.head? = some Separator then [] else c)
          (splitSep target ++ rest)

/-- The number of symbolic links the kernel follows in one lookup, plus one. -/
def linkBudget : Nat := 41

/-- Where a path name given to a system call starts: at the root, or in the
working directory. -/
def FS.start (fs : FS) (path : Str) : List Str :=
  if path.head? = some Separator then [] else fs.cwd

/-- Lookup of a path name as given to a system call: the empty name does not
exist, a name longer than the limit is refused. -/
def FS.resolve (fs : FS) (follow : Bool) (path : Str) :
    Except (List Str × Errno) (List Str × Node) :=
  if path = [] then .error ([], .ENOENT)
  else if fs.pathMax < path.length then .error ([], .ENAMETOOLONG)
  else fs.lookup follow linkBudget (fs.start path) (splitSep path)

/-- `os.Stat(name)`: symbolic links are followed. -/
def FS.Stat (fs : FS) (name : Str) : Except Error Node :=
  match fs.resolve true name with
  | .error e => .error (Error.sys .stat name e.2)
  | .ok r => .ok r.2

/-- `os.Lstat(name)`: a symbolic link in the last place is reported itself. -/
def FS.Lstat (fs : FS) (name : Str) : Except Error Node :=
  match fs.resolve false name with
  | .error e => .error (Error.sys .lstat name e.2)
  | .ok r => .ok r.2

/-- `fileExists(filename)` of `functions.go`:
```go
_, err := os.Stat(filename)
if pathError, ok := err.(*os.PathError); ok {
	if pathError.Err == syscall.ENOTDIR { return false }
}
if os.IsNotExist(err) { return false }
return true
``` -/
def fileExists (fs : FS) (filename : Str) : Bool :=
  match fs.Stat filename with
  | .ok _ => true
  | .error (Error.sys _ _ .ENOTDIR) => false
  | .error (Error.sys _ _ .ENOENT) => false
  | .error _ => true

/-- How one pass of `walkSymlinks` along the elements of a path ends: at the
end of the path, with an error, or at a symbolic link (`dest` names the link,
`rest` are the elements still to go after its target). -/
inductive Evaluated where
  | done (dest : Str)
  | failed (e : Error)
  | link (dest target : Str) (rest : List Str)
deriving DecidableEq, Repr

/-- The index of the last separator of `dest` that is not part of the volume
(the leading separator of a rooted path), as `walkSymlinks` looks for it:
```go
for r = len(dest) - 1; r >= volLen; r-- {
	if os.IsPathSeparator(dest[r]) { break }
}
```
`none` stands for `r < volLen`. -/
def lastSep (dest : Str) (volLen : Nat) : Option Nat :=
  let tail := dest.reverse.takeWhile (fun c => ¬ c = Separator)
  if tail.length = dest.length then none
  else if dest.length - tail.length - 1 < volLen then none
  else some (dest.length - tail.length - 1)

/-- The element `..` in `walkSymlinks`:
```go
if r < volLen || dest[r+1:] == ".." {
	if len(dest) > volLen { dest += pathSeparator }
	dest += ".."
} else {
	dest = dest[:r]
}
``` -/
def walkUp (vol dest : Str) : Str :=
  match lastSep dest vol.length with
  | none => (if vol.length < dest.length then dest ++ [Separator] else dest) ++ ['.', '.']
  | some r =>
    if dest.drop (r + 1) = ['.', '.'] then
      (if vol.length < dest.length then dest ++ [Separator] else dest) ++ ['.', '.']
    else dest.take r

/-- One pass of the loop of `walkSymlinks` (package `path/filepath`), up to
the next symbolic link.  Empty elements and `.` are skipped, `..` goes up in
`dest`, any other element is added to `dest` and looked at with `os.Lstat`:
```go
if len(dest) > volumeNameLen(dest) && !os.IsPathSeparator(dest[len(dest)-1]) {
	dest += pathSeparator
}
dest += path[start:end]
fi, err := os.Lstat(dest)
if err != nil { return "", err }
if fi.Mode()&fs.ModeSymlink == 0 {
	if !fi.Mode().IsDir() && end < len(path) { return "", syscall.ENOTDIR }
	continue
}
``` -/
def FS.walkPass (fs : FS) (vol : Str) : Str → List Str → Evaluated
  | dest, [] => .done dest
  | dest, c :: rest =>
    if c = [] ∨ c = ['.'] then fs.walkPass vol dest rest
    else if c = ['.', '.'] then fs.walkPass vol (walkUp vol dest) rest
    else
      match fs.Lstat
        ((if dest ≠ [] ∧ dest.getLast? ≠ some Separator then dest ++ [Separator] else dest)
          ++ c) with
      | .error e => .failed e
      | .ok (.link target _) =>
        .link
          ((if dest ≠ [] ∧ dest.getLast? ≠ some Separator then dest ++ [Separator] else dest)
            ++ c)
          target rest
      | .ok n =>
        if ¬ n.IsDir ∧ rest ≠ [] then .failed (Error.errno .ENOTDIR)
        else
          fs.walkPass vol
            ((if dest ≠ [] ∧ dest.getLast? ≠ some Separator then dest ++ [Separator] else dest)
              ++ c)
            rest

/-- The loop of `walkSymlinks` with at most `k - 1` links walked.  At a link the
target replaces the element: a rooted target starts again at the root, another
one replaces the last element of `dest`:
```go
path = link + path[end:]
if len(link) > 0 && os.IsPathSeparator(link[0]) {
	dest = link[:1]; end = 1; vol = link[:1]; volLen = 1
} else {
	// r as above
	if r < volLen { dest = vol } else { dest = dest[:r] }
	end = 0
}
```
and at the end `Clean(dest)` is returned. -/
def FS.walkSymlinks (fs : FS) : Nat → Str → Str → List Str → Except Error Str
  | 0, _, _, _ => .error Error.tooManyLinks
  | k + 1, vol, dest, todo =>
    match fs.walkPass vol dest todo with
    | .done d => .ok (Clean d)
    | .failed e => .error e
    | .link d target rest =>
      if target.head? = some Separator then
        fs.walkSymlinks k [Separator] [Separator] (splitSep target ++ rest)
      else
        fs.walkSymlinks k vol
          (match lastSep d vol.length with
            | none => vol
            | some r => d.take r)
          (splitSep target ++ rest)

/-- `filepath.EvalSymlinks(path)`: the path name after the evaluation of all
symbolic links, by `walkSymlinks`; the 256th link on the way is an error. -/
def FS.EvalSymlinks (fs : FS) (path : Str) : Except Error Str :=
  fs.walkSymlinks 256 (if path.head? = some Separator then [Separator] else [])
    (if path.head? = some Separator then [Separator] else []) (splitSep path)

/-- A name a directory entry can have. -/
def validName (n : Str) : Bool :=
  n ≠ [] ∧ n ≠ ['.'] ∧ n ≠ ['.', '.'] ∧ Separator ∉ n

/-- Byte-wise order of file names. -/
def strLe : Str → Str → Bool
  | [], _ => true
  | _ :: _, [] => false
  | a :: as, b :: bs => a.toNat < b.toNat ∨ (a = b ∧ strLe as bs)

/-- Insert a name into a sorted list of names. -/
def insertName (n : Str) : List Str → List Str
  | [] => [n]
  | m :: ms => if strLe n m then n :: m :: ms else m :: insertName n ms

/-- Sort names by file name, as `os.ReadDir` does. -/
def sortNames : List Str → List Str
  | [] => []
  | n :: ns => insertName n (sortNames ns)

/-- The names of the entries of the directory with clean name `key`. -/
def FS.entries (fs : FS) (key : Str) : List Str :=
  (fs.nodes.filterMap (fun kn =>
    let (d, n) := Split kn.1
    if Clean d = key then some n else none)).filter validName

/-- `os.ReadDir(name)`: the names of the directory's entries, sorted by file name. -/
def FS.ReadDir (fs : FS) (name : Str) : Except Error (List Str) :=
  match fs.resolve true name with
  | .error e => .error (Error.sys .open name e.2)
  | .ok r =>
    if r.2.IsDir then .ok (sortNames (fs.entries (absPath r.1)))
    else .error (Error.sys .open name .ENOTDIR)

/-- The pieces of a path name without the empty ones at its end. -/
def dropTrailingEmpty (comps : List Str) : List Str :=
  (comps.reverse.dropWhile (fun c => c = [])).reverse

/-- The system call `mkdir(path)`: the directory above must exist, the name
itself must not. -/
def FS.Mkdir (fs : FS) (path : Str) : FS × Option Error :=
  if path = [] then (fs, some (Error.sys .mkdir path .ENOENT))
  else if fs.pathMax < path.length then (fs, some (Error.sys .mkdir path .ENAMETOOLONG))
  else
    let comps := dropTrailingEmpty (splitSep path)
    match comps.getLast? with
    | none => (fs, some (Error.sys .mkdir path .EEXIST))
    | some last =>
      match fs.lookup true linkBudget (fs.start path) comps.dropLast with
      | .error e => (fs, some (Error.sys .mkdir path e.2))
      | .ok (cur, n) =>
        if ¬ n.IsDir then (fs, some (Error.sys .mkdir path .ENOTDIR))
        else if last = [] ∨ last = ['.'] ∨ last = ['.', '.'] then
          (fs, some (Error.sys .mkdir path .EEXIST))
        else if fs.nameMax < last.length then
          (fs, some (Error.sys .mkdir path .ENAMETOOLONG))
        else
          match fs.find (absPath (cur ++ [last])) with
          | some _ => (fs, some (Error.sys .mkdir path .EEXIST))
          | none => (fs.put (absPath (cur ++ [last])) (.dir fs.now), none)

/-- The recursion of `os.MkdirAll`:
```go
dir, err := Stat(path)
if err == nil {
	if dir.IsDir() { return nil }
	return &PathError{Op: "mkdir", Path: path, Err: syscall.ENOTDIR}
}
i := len(path)
for i > 0 && IsPathSeparator(path[i-1]) { i-- }
j := i
for j > 0 && !IsPathSeparator(path[j-1]) { j-- }
if j > 1 {
	err = MkdirAll(fixRootDirectory(path[:j-1]), perm)
	if err != nil { return err }
}
err = Mkdir(path, perm)
if err != nil {
	dir, err1 := Lstat(path)
	if err1 == nil && dir.IsDir() { return nil }
	return err
}
return nil
```
An ancestor that is not a directory is named in the error.  The budget is the
length of the path, which the recursion, on a shorter path each time, cannot
use up. -/
def FS.mkdirAllLoop : Nat → FS → Str → FS × Option Error
  | 0, fs, path => (fs, some (Error.sys .mkdir path .ENAMETOOLONG))
  | k + 1, fs, path =>
    match fs.Stat path with
    | .ok dir =>
      if dir.IsDir then (fs, none) else (fs, some (Error.sys .mkdir path .ENOTDIR))
    | .error _ =>
      let j := ((path.reverse.dropWhile (fun c => c = Separator)).dropWhile
        (fun c => ¬ c = Separator)).length
      match (if 1 < j then FS.mkdirAllLoop k fs (path.take (j - 1)) else (fs, none)) with
      | (fs1, some e) => (fs1, some e)
      | (fs1, none) =>
        match fs1.Mkdir path with
        | (fs2, none) => (fs2, none)
        | (fs2, some e) =>
          match fs2.Lstat path with
          | .ok dir => if dir.IsDir then (fs2, none) else (fs2, some e)
          | .error _ => (fs2, some e)

/-- `os.MkdirAll(path, os.ModePerm)`. -/
def FS.MkdirAll (fs : FS) (path : Str) : FS × Option Error :=
  FS.mkdirAllLoop (path.length + 1) fs path

/-- `os.Open(name)`: what is there to read. -/
def FS.Open (fs : FS) (name : Str) : Except Error Node :=
  match fs.resolve true name with
  | .error e => .error (Error.sys .open name e.2)
  | .ok r => .ok r.2

/-- The system call `open(name, O_RDWR|O_CREAT|O_TRUNC)` for the elements
`comps`, starting in the directory `cur`: the directory above must exist, a
name with a separator at its end is refused, a link in the last place is
followed, also a dangling one (its target is created). -/
def FS.createLoop (fs : FS) (name : Str) : Nat → List Str → List Str → FS × Option Error
  | 0, _, _ => (fs, some (Error.sys .open name .ELOOP))
  | k + 1, cur, comps =>
    match (dropTrailingEmpty comps).getLast? with
    | none => (fs, some (Error.sys .open name .EISDIR))
    | some last =>
      match fs.lookup true linkBudget cur (dropTrailingEmpty comps).dropLast with
      | .error e => (fs, some (Error.sys .open name e.2))
      | .ok (dir, n) =>
        if ¬ n.IsDir then (fs, some (Error.sys .open name .ENOTDIR))
        else if dropTrailingEmpty comps ≠ comps ∨ last = ['.'] ∨ last = ['.', '.'] then
          (fs, some (Error.sys .open name .EISDIR))
        else if fs.nameMax < last.length then
          (fs, some (Error.sys .open name .ENAMETOOLONG))
        else
          match fs.find (absPath (dir ++ [last])) with
          | some (.dir _) => (fs, some (Error.sys .open name .EISDIR))
          | some (.link target _) =>
            if target = [] then (fs, some (Error.sys .open name .ENOENT))
            else
              fs.createLoop name k (if target.head? = some Separator then [] else dir)
                (splitSep target)
          | _ => (fs.put (absPath (dir ++ [last])) (.file [] fs.now), none)

/-- `os.Create(name)`: the file is created empty, or truncated. -/
def FS.Create (fs : FS) (name : Str) : FS × Option Error :=
  if name = [] then (fs, some (Error.sys .open name .ENOENT))
  else if fs.pathMax < name.length then (fs, some (Error.sys .open name .ENAMETOOLONG))
  else fs.createLoop name linkBudget (fs.start name) (splitSep name)

/-- `io.Copy(dst, src)` on the two open files: what the source holds at that
moment is written to the destination; reading a directory fails. -/
def FS.ioCopy (fs : FS) (dstName srcName : Str) : FS × Option Error :=
  match fs.resolve true srcName with
  | .ok (_, .file content _) =>
    match fs.resolve true dstName with
    | .ok (cur, _) => (fs.put (absPath cur) (.file content fs.now), none)
    | .error e => (fs, some (Error.sys .write dstName e.2))
  | .ok _ => (fs, some (Error.sys .read srcName .EISDIR))
  | .error e => (fs, some (Error.sys .read srcName e.2))

/-- `os.Chtimes(name, atime, mtime)`: symbolic links are followed. -/
def FS.Chtimes (fs : FS) (name : Str) (mtime : Time) : FS × Option Error :=
  match fs.resolve true name with
  | .error e => (fs, some (Error.sys .chtimes name e.2))
  | .ok (cur, .file content _) => (fs.put (absPath cur) (.file content mtime), none)
  | .ok (cur, .dir _) => (fs.put (absPath cur) (.dir mtime), none)
  | .ok (cur, .link target _) => (fs.put (absPath cur) (.link target mtime), none)

/-- `os.Remove(name)`: a file, a symbolic link (not what it points to), or an
empty directory.
```go
e := syscall.Unlink(name)
if e == nil { return nil }
e1 := syscall.Rmdir(name)
if e1 == nil { return nil }
if e1 != syscall.ENOTDIR { e = e1 }
return &PathError{Op: "remove", Path: name, Err: e}
```
The root cannot be removed, nor a name that ends in `.` or `..`; a file or a
link named with a separator at the end is refused. -/
def FS.Remove (fs : FS) (name : Str) : FS × Option Error :=
  if name = [] then (fs, some (Error.sys .remove name .ENOENT))
  else if fs.pathMax < name.length then (fs, some (Error.sys .remove name .ENAMETOOLONG))
  else
    match (dropTrailingEmpty (splitSep name)).getLast? with
    | none => (fs, some (Error.sys .remove name .EBUSY))
    | some last =>
      match fs.lookup true linkBudget (fs.start name)
          (dropTrailingEmpty (splitSep name)).dropLast with
      | .error e => (fs, some (Error.sys .remove name e.2))
      | .ok (cur, n) =>
        if ¬ n.IsDir then (fs, some (Error.sys .remove name .ENOTDIR))
        else if last = ['.'] then (fs, some (Error.sys .remove name .EINVAL))
        else if last = ['.', '.'] then (fs, some (Error.sys .remove name .ENOTEMPTY))
        else if fs.nameMax < last.length then
          (fs, some (Error.sys .remove name .ENAMETOOLONG))
        else
          match fs.find (absPath (cur ++ [last])) with
          | none => (fs, some (Error.sys .remove name .ENOENT))
          | some (.dir _) =>
            if fs.entries (absPath (cur ++ [last])) ≠ [] then
              (fs, some (Error.sys .remove name .ENOTEMPTY))
            else
              ({ fs with nodes := fs.nodes.filter (fun kn => ¬ kn.1 = absPath (cur ++ [last])) },
                none)
          | some _ =>
            if dropTrailingEmpty (splitSep name) ≠ splitSep name then
              (fs, some (Error.sys .remove name .ENOTDIR))
            else
              ({ fs with nodes := fs.nodes.filter (fun kn => ¬ kn.1 = absPath (cur ++ [last])) },
                none)

/-- Whether clean name `key` is `top` or lies below it. -/
def below (top key : Str) : Bool :=
  key = top ∨ (if top = [Separator] then top else top ++ [Separator]).isPrefixOf key

/-- `endsWithDot(path)` of package `os`: the last element of the path is `.`. -/
def endsWithDot (path : Str) : Bool :=
  path = ['.'] ∨ (path.reverse.take 2 = ['.', Separator])

/-- All but one of the separators a path starts with are removed. -/
def dropLeadingSeps : Str → Str
  | a :: b :: rest =>
    if a = Separator ∧ b = Separator then dropLeadingSeps (b :: rest) else a :: b :: rest
  | p => p

/-- The separators a path ends with are removed, the first byte apart. -/
def dropTrailingSeps : Str → Str
  | [] => []
  | c :: rest => c :: (rest.reverse.dropWhile (fun x => x = Separator)).reverse

/-- `splitPath(path)` of package `os`: the directory and the last element of a
path, for `RemoveAll`:
```go
dirname := "."
for len(path) > 1 && path[0] == '/' && path[1] == '/' { path = path[1:] }
i := len(path) - 1
for ; i > 0 && path[i] == '/'; i-- { path = path[:i] }
basename := path
for i--; i >= 0; i-- {
	if path[i] == '/' {
		if i == 0 { dirname = path[:1] } else { dirname = path[:i] }
		basename = path[i+1:]
		break
	}
}
return dirname, basename
``` -/
def splitPath (path : Str) : Str × Str :=
  let p := dropTrailingSeps (dropLeadingSeps path)
  let tail := p.dropLast.reverse.takeWhile (fun c => ¬ c = Separator)
  if tail.length = p.dropLast.length then (['.'], p)
  else
    let i := p.dropLast.length - tail.length - 1
    (if i = 0 then p.take 1 else p.take i, p.drop (i + 1))

/-- The nodes strictly below the directory with clean name `top` are removed. -/
def FS.clear (fs : FS) (top : Str) : FS :=
  { fs with nodes := fs.nodes.filter (fun kn => ¬ (below top kn.1 ∧ ¬ kn.1 = top)) }

/-- `removeAllFrom(parent, base)` of package `os`, with `parent` the open
directory `cur` (there are no permissions, so removing an entry of a directory
never fails): `unlinkat` removes a file or a link; a directory is emptied,
entry by entry, and removed; no error when there is no such entry.  An error
is reported for the path `parentDir + "/" + base`.  The bases `.`, `..` and `/`
name directories that are emptied but cannot be removed themselves. -/
def FS.removeAllFrom (fs : FS) (parentDir : Str) (cur : List Str) (n : Node) (base : Str) :
    FS × Option Error :=
  if base = [Separator] then
    (fs.clear [Separator],
      some (Error.sys .unlinkat (parentDir ++ [Separator] ++ base) .EBUSY))
  else if ¬ n.IsDir then
    (fs, some (Error.sys .unlinkat (parentDir ++ [Separator] ++ base) .ENOTDIR))
  else if base = ['.'] then
    (fs.clear (absPath cur),
      some (Error.sys .unlinkat (parentDir ++ [Separator] ++ base) .EINVAL))
  else if base = ['.', '.'] then
    (fs.clear (absPath cur.dropLast),
      some (Error.sys .unlinkat (parentDir ++ [Separator] ++ base) .ENOTEMPTY))
  else if fs.nameMax < base.length then
    (fs, some (Error.sys .unlinkat (parentDir ++ [Separator] ++ base) .ENAMETOOLONG))
  else
    match fs.find (absPath (cur ++ [base])) with
    | none => (fs, none)
    | some (.dir _) =>
      ({ fs with nodes := fs.nodes.filter (fun kn => ¬ below (absPath (cur ++ [base])) kn.1) },
        none)
    | some _ =>
      ({ fs with nodes := fs.nodes.filter (fun kn => ¬ kn.1 = absPath (cur ++ [base])) }, none)

/-- `os.RemoveAll(path)`: the path and everything below it (links are removed,
not followed); no error when the path does not exist.
```go
if path == "" { return nil }
if endsWithDot(path) { return &PathError{Op: "RemoveAll", Path: path, Err: syscall.EINVAL} }
err := Remove(path)
if err == nil || IsNotExist(err) { return nil }
parentDir, base := splitPath(path)
parent, err := Open(parentDir)
if IsNotExist(err) { return nil }
if err != nil { return err }
defer parent.Close()
if err := removeAllFrom(parent, base); err != nil {
	if pathErr, ok := err.(*PathError); ok {
		pathErr.Path = parentDir + string(PathSeparator) + pathErr.Path
		err = pathErr
	}
	return err
}
return nil
``` -/
def FS.RemoveAll (fs : FS) (path : Str) : FS × Option Error :=
  if path = [] then (fs, none)
  else if endsWithDot path then (fs, some (Error.sys .removeAll path .EINVAL))
  else
    match fs.Remove path with
    | (fs1, none) => (fs1, none)
    | (_, some (Error.sys _ _ .ENOENT)) => (fs, none)
    | (_, some _) =>
      match fs.resolve true (splitPath path).1 with
      | .error (_, .ENOENT) => (fs, none)
      | .error (_, e) => (fs, some (Error.sys .open (splitPath path).1 e))
      | .ok (cur, n) => fs.removeAllFrom (splitPath path).1 cur n (splitPath path).2

/-! ## The state of a run -/

/-- One value sent on the `message` channel: a slice of strings, or the text
of an error (`err.Error()`). -/
inductive Msg where
  | words (o : List Str)
  | error (e : Error)
deriving DecidableEq, Repr

/-- A system call that changes the file system, as issued (whether or not it
succeeded). -/
inductive Call where
  | mkdirAll (path : Str)
  | create (name : Str)
  | write (name : Str)
  | chtimes (name : Str) (mtime : Time)
  | remove (name : Str)
  | removeAll (path : Str)
deriving DecidableEq, Repr

/-- The file system, the messages sent so far and the changing system calls
issued so far, both oldest first. -/
structure World where
  fs : FS
  out : List Msg
  calls : List Call
deriving DecidableEq, Repr

/-- How a call of one of the functions of `xcpdir.go` ends: it returns an
`error` (possibly `nil`), it panics (index or slice bounds out of range), or the
recursion budget of the model is used up. -/
inductive Outcome where
  | ret (err : Option Error)
  | crash
  | fuel
deriving DecidableEq, Repr

/-- `a.sendMessage(o...)`. -/
def World.send (w : World) (o : List Str) : World :=
  { w with out := w.out ++ [Msg.words o] }

/-- `a.sendMessage(err.Error())`. -/
def World.sendError (w : World) (e : Error) : World :=
  { w with out := w.out ++ [Msg.error e] }

/-- Issue `os.MkdirAll`. -/
def World.MkdirAll (w : World) (path : Str) : World × Option Error :=
  let r := w.fs.MkdirAll path
  ({ w with fs := r.1, calls := w.calls ++ [Call.mkdirAll path] }, r.2)

/-- Issue `os.Create`. -/
def World.Create (w : World) (name : Str) : World × Option Error :=
  let r := w.fs.Create name
  ({ w with fs := r.1, calls := w.calls ++ [Call.create name] }, r.2)

/-- Issue `io.Copy` into the created file. -/
def World.ioCopy (w : World) (dstName srcName : Str) : World × Option Error :=
  let r := w.fs.ioCopy dstName srcName
  ({ w with fs := r.1, calls := w.calls ++ [Call.write dstName] }, r.2)

/-- Issue `os.Chtimes`. -/
def World.Chtimes (w : World) (name : Str) (mtime : Time) : World × Option Error :=
  let r := w.fs.Chtimes name mtime
  ({ w with fs := r.1, calls := w.calls ++ [Call.chtimes name mtime] }, r.2)

/-- Issue `os.Remove`. -/
def World.Remove (w : World) (name : Str) : World × Option Error :=
  let r := w.fs.Remove name
  ({ w with fs := r.1, calls := w.calls ++ [Call.remove name] }, r.2)

/-- Issue `os.RemoveAll`. -/
def World.RemoveAll (w : World) (path : Str) : World × Option Error :=
  let r := w.fs.RemoveAll path
  ({ w with fs := r.1, calls := w.calls ++ [Call.removeAll path] }, r.2)

/-! ## `hidden_unix.go` -/

/-- The constant `dotCharacter = 46`. -/
def dotCharacter : Char := Char.ofNat 46

/-- `isHidden(path)` of the build for UNIX-like platforms:
```go
if path[0] == dotCharacter { return true, nil }
return false, nil
```
`none` is the panic "index out of range" on the empty string. -/
def isHidden : Str → Option (Bool × Option Error)
  | [] => none
  | c :: _ => if c = dotCharacter then some (true, none) else some (false, none)

/-! ## `xcpdir.go` -/

/-- The receiver `a *args` without its channel, whose traffic is `World.out`. -/
structure Args where
  src : Str
  dst : Str
  trash : Str
  dryrun : Bool
  hidden : Bool
  modified : Bool
  link : Bool
  ignore : Bool
  backup : Bool
  sync : Bool
deriving DecidableEq, Repr

/-- The type `opMode` with its two constants. -/
inductive opMode where
  | modeBackup
  | modeSync
deriving DecidableEq, Repr

/-- `string(mode)`. -/
def opMode.string : opMode → Str
  | .modeBackup => "backup".toList
  | .modeSync => "sync".toList

/-- The first part of `copyFile`: make the directory of `dstName` when it does
not exist.  Lines 75-84. -/
def copyFileMkdir (a : Args) (dstName : Str) (w : World) : World × Option Error :=
  let dir := (Split dstName).1
  if ! fileExists w.fs dir then
    let w1 := w.send ["mkdir".toList, dir]
    if ! a.dryrun then w1.MkdirAll dir else (w1, none)
  else (w, none)

/-- `(a *args) copyFile(srcName, dstName)`: make the directory and copy a
file, unless `dryrun`.  Lines 68-113. -/
def copyFile (a : Args) (srcName dstName : Str) (w : World) : World × Outcome :=
  match w.fs.Stat srcName with
  | .error e => (w, .ret (newError 71 (some e)))
  | .ok info =>
    match copyFileMkdir a dstName w with
    | (w1, some e) => (w1, .ret (newError 81 (some e)))
    | (w1, none) =>
      let w2 := w1.send ["copy".toList, srcName, dstName]
      if a.dryrun then (w2, .ret none)
      else
        match w2.fs.Open srcName with
        | .error e => (w2, .ret (newError 93 (some e)))
        | .ok _ =>
          match w2.Create dstName with
          | (w3, some e) => (w3, .ret (newError 99 (some e)))
          | (w3, none) =>
            match w3.ioCopy dstName srcName with
            | (w4, some e) => (w4, .ret (newError 105 (some e)))
            | (w4, none) =>
              match w4.Chtimes dstName info.ModTime with
              | (w5, some e) => (w5.sendError e, .ret none)
              | (w5, none) => (w5, .ret none)

/-- `(a *args) backupFile(mode, path)`: copy the file into the trash, and in
sync mode remove it afterwards.  Lines 125-152. -/
def backupFile (a : Args) (mode : opMode) (path : Str) (w : World) : World × Outcome :=
  match w.fs.Stat path with
  | .error e => (w, .ret (newError 128 (some e)))
  | .ok info =>
    let (dir, base) := Split path
    match sliceFrom dir a.dst.length with
    | none => (w, .crash)
    | some rel =>
      let backup := Join [a.trash, rel, backupBaseName base info.ModTime]
      let w1 := w.send [mode.string, path, backup]
      match copyFile a path backup w1 with
      | (w2, .ret (some e)) => (w2, .ret (newError 138 (some e)))
      | (w2, .ret none) =>
        if a.sync && mode == opMode.modeSync then
          let w3 := w2.send ["remove".toList, path]
          if ! a.dryrun then
            match w3.Remove path with
            | (w4, some e) => (w4, .ret (newError 147 (some e)))
            | (w4, none) => (w4, .ret (newError 151 none))
          else (w3, .ret (newError 151 none))
        else (w2, .ret (newError 151 none))
      | (w2, o) => (w2, o)

/-- The block `if a.backup && fileExists(dst)` of `copy`, lines 170-187: `some o`
when the block returns `o`, `none` when control goes on to the final
`copyFile`. -/
def copyBackup (a : Args) (entity dst : Str) (w : World) : World × Option Outcome :=
  if a.backup && fileExists w.fs dst then
    match w.fs.Stat entity with
    | .error e1 => (w, some (.ret (newError 173 (some e1))))
    | .ok info1 =>
      match w.fs.Stat dst with
      | .error e2 => (w, some (.ret (newError 177 (some e2))))
      | .ok info2 =>
        if a.modified && info1.Size == info2.Size
            && info1.ModTime.sameInstant info2.ModTime then
          (w.send ["skip".toList, entity, dst], some (.ret none))
        else
          match backupFile a opMode.modeBackup dst w with
          | (w1, .ret (some e)) => (w1, some (.ret (newError 185 (some e))))
          | (w1, .ret none) => (w1, none)
          | (w1, o) => (w1, some o)
  else (w, none)

/-- `(a *args) copy(path)`: resolve the source, back up an existing
destination, skip or copy.  Lines 158-190. -/
def copy (a : Args) (path : Str) (w : World) : World × Outcome :=
  match sliceFrom path a.src.length with
  | none => (w, .crash)
  | some rel =>
    let dst := Join [a.dst, rel]
    let w1 := w.send ["target".toList, path, dst]
    match w1.fs.EvalSymlinks path with
    | .error e => (w1, .ret (newError 166 (some e)))
    | .ok entity =>
      match copyBackup a entity dst w1 with
      | (w2, some o) => (w2, o)
      | (w2, none) => copyFile a entity dst w2

/-- A function with the signature of the method `dirWalk`. -/
abbrev Walk := Args → Str → World → World × Outcome

/-- One round of the loop of `syncDir` (lines 267-323) for the entry `name` of
`dstDir`: `none` when the loop goes on (`continue`, or the end of the body),
`some o` when `syncDir` returns `o`.  `walk` is the method `dirWalk`. -/
def syncEntry (walk : Walk) (a : Args) (srcDir dstDir name : Str) (w : World) :
    World × Option Outcome :=
  let srcPath := Join [srcDir, name]
  if fileExists w.fs srcPath then (w, none)
  else
    match w.fs.Stat dstDir with
    | .error e =>
      if a.ignore then (w.sendError e, none)
      else (w, some (.ret (newError 279 (some e))))
    | .ok info =>
      if info.IsDir then
        match sliceFrom dstDir a.dst.length with
        | none => (w, some .crash)
        | some rel =>
          let a2 : Args :=
            { a with
              backup := false
              sync := false
              link := false
              src := Join [dstDir, name]
              dst := Join [a.trash, rel, backupBaseName name info.ModTime] }
          let w1 := w.send [opMode.modeBackup.string, a2.src, a2.dst]
          match walk a2 a2.src w1 with
          | (w2, .ret (some e)) =>
            if a2.ignore then (w2.sendError e, none)
            else (w2, some (.ret (newError 299 (some e))))
          | (w2, .ret none) =>
            let w3 := w2.send ["remove".toList, a2.src]
            if ! a.dryrun then
              match w3.RemoveAll a2.src with
              | (w4, some e) =>
                if a2.ignore then (w4.sendError e, none)
                else (w4, some (.ret (newError 309 (some e))))
              | (w4, none) => (w4, none)
            else (w3, none)
          | (w2, o) => (w2, some o)
      else
        let dstPath := Join [dstDir, name]
        match backupFile a opMode.modeSync dstPath w with
        | (w1, .ret (some e)) =>
          if a.ignore then (w1.sendError e, none)
          else (w1, some (.ret (newError 320 (some e))))
        | (w1, .ret none) => (w1, none)
        | (w1, o) => (w1, some o)

/-- The loop `for _, file := range files` of `syncDir`. -/
def syncLoop (walk : Walk) (a : Args) (srcDir dstDir : Str) :
    List Str → World → World × Option Outcome
  | [], w => (w, none)
  | name :: rest, w =>
    match syncEntry walk a srcDir dstDir name w with
    | (w1, none) => syncLoop walk a srcDir dstDir rest w1
    | (w1, some o) => (w1, some o)

/-- `(a *args) syncDir(srcDir)`: retire the entries of the mirrored
destination directory that the source directory does not have.  Lines 249-330.
After the loop the variable `err` of line 258 is still `nil` (the loop declares
its own), so line 329 returns `newError(nil)`. -/
def syncDir (walk : Walk) (a : Args) (srcDir : Str) (w : World) : World × Outcome :=
  if ! a.sync then (w, .ret none)
  else
    match sliceFrom srcDir a.src.length with
    | none => (w, .crash)
    | some rel =>
      let dstDir := Join [a.dst, rel]
      if ! fileExists w.fs dstDir then (w, .ret none)
      else
        match w.fs.ReadDir dstDir with
        | .error e =>
          if a.ignore then (w.sendError e, .ret none)
          else (w, .ret (newError 264 (some e)))
        | .ok files =>
          let w1 := w.send [opMode.modeSync.string, srcDir, dstDir]
          match syncLoop walk a srcDir dstDir files w1 with
          | (w2, none) => (w2, .ret (newError 329 none))
          | (w2, some o) => (w2, o)

/-- One round of the loop of `dirWalk` (lines 344-399) for the entry `name` of
`path`: `none` when the loop goes on, `some o` when `dirWalk` returns `o`.
`walk` is the method `dirWalk` itself.  `runtime.GOOS == "windows"` is false in
this build, so line 389 `err = a.copy(path)` is the branch taken for every
file, whatever its extension. -/
def dirWalkEntry (walk : Walk) (a : Args) (dir name : Str) (w : World) :
    World × Option Outcome :=
  let path := Join [dir, name]
  match w.fs.Stat path with
  | .error e =>
    if a.ignore then (w.sendError e, none)
    else (w, some (.ret (newError 353 (some e))))
  | .ok info =>
    match isHidden path with
    | none => (w, some .crash)
    | some (_, some e) =>
      if a.ignore then (w.sendError e, none)
      else (w, some (.ret (newError 362 (some e))))
    | some (hidden, none) =>
      if ! a.hidden && hidden then (w, none)
      else if info.IsDir then
        match syncDir walk a path w with
        | (w1, .ret (some e)) =>
          if a.ignore then (w1.sendError e, none)
          else (w1, some (.ret (newError 375 (some e))))
        | (w1, .ret none) =>
          match walk a path w1 with
          | (w2, .ret (some e)) =>
            if a.ignore then (w2.sendError e, none)
            else (w2, some (.ret (newError 382 (some e))))
          | (w2, .ret none) => (w2, none)
          | (w2, o) => (w2, some o)
        | (w1, o) => (w1, some o)
      else
        match copy a path w with
        | (w1, .ret (some e)) =>
          if a.ignore then (w1.sendError e, none)
          else (w1, some (.ret (newError 396 (some e))))
        | (w1, .ret none) => (w1, none)
        | (w1, o) => (w1, some o)

/-- The loop `for _, file := range files` of `dirWalk`. -/
def dirWalkLoop (walk : Walk) (a : Args) (dir : Str) :
    List Str → World → World × Option Outcome
  | [], w => (w, none)
  | name :: rest, w =>
    match dirWalkEntry walk a dir name w with
    | (w1, none) => dirWalkLoop walk a dir rest w1
    | (w1, some o) => (w1, some o)

/-- `(a *args) dirWalk(path)`, lines 332-406, with a budget for the depth of
the recursion.  After the loop the variable `err` of line 335 is still `nil`,
so line 405 returns `newError(nil)`. -/
def dirWalk : Nat → Walk
  | 0, _, _, w => (w, .fuel)
  | n + 1, a, path, w =>
    match w.fs.ReadDir path with
    | .error e =>
      if a.ignore then (w.sendError e, .ret none)
      else (w, .ret (newError 341 (some e)))
    | .ok files =>
      match dirWalkLoop (dirWalk n) a path files w with
      | (w1, none) => (w1, .ret (newError 405 none))
      | (w1, some o) => (w1, o)

/-- `(a *args) Xcpdir()`, lines 408-421, with the budget handed to `dirWalk`. -/
def Xcpdir (n : Nat) (a : Args) (w : World) : World × Outcome :=
  match w.fs.Stat a.src with
  | .error e => (w, .ret (newError 411 (some e)))
  | .ok info =>
    if ! info.IsDir then (w, .ret (newError 414 (some (Error.notDirectory a.src))))
    else
      match syncDir (dirWalk n) a a.src w with
      | (w1, .ret (some e)) => (w1, .ret (newError 418 (some e)))
      | (w1, .ret none) => dirWalk n a a.src w1
      | (w1, o) => (w1, o)

/-- A budget that `dirWalk` cannot use up: a directory is only read when its
name is within the limit of the system, and names grow on the way down. -/
def budget (fs : FS) : Nat := 2 * fs.pathMax + 6

/-- A run of the program: `Xcpdir` with a sufficient budget. -/
def run (a : Args) (w : World) : World × Outcome := Xcpdir (budget w.fs) a w

/-! ## Concrete file systems used in the evaluations below -/

namespace Sample

/-- The modification time of everything in the sample trees. -/
def t0 : Time := ⟨100, 2024, 3, 7, 9, 5, 1⟩

/-- The wall clock of the sample runs. -/
def t1 : Time := ⟨200, 2024, 4, 8, 10, 6, 2⟩

/-- A configuration over `/s`, `/d` and `/t` with every option off. -/
def plain : Args :=
  { src := "/s".toList, dst := "/d".toList, trash := "/t".toList, dryrun := false,
    hidden := false, modified := false, link := false, ignore := false, backup := false,
    sync := false }

/-- A world with the given nodes, nothing sent and nothing called yet. -/
def world (nodes : List (Str × Node)) : World :=
  { fs := { nodes := nodes, cwd := [], pathMax := 4096, nameMax := 255, now := t1 },
    out := [], calls := [] }

/-- Source `/s` holds `a.txt`; destination `/d` holds the same `a.txt` and a
file `b.txt` that the source does not have; the trash `/t` is empty. -/
def staleFile : World :=
  world [("/".toList, .dir t0), ("/s".toList, .dir t0), ("/s/a.txt".toList, .file [1] t0),
    ("/d".toList, .dir t0), ("/d/a.txt".toList, .file [1] t0),
    ("/d/b.txt".toList, .file [2] t0), ("/t".toList, .dir t0)]

/-- Source `/s` is empty; destination `/d` holds a directory `x` with a file
`f`; the trash root `/t` is a regular file, so nothing can be copied below it. -/
def staleDir : World :=
  world [("/".toList, .dir t0), ("/s".toList, .dir t0), ("/d".toList, .dir t0),
    ("/d/x".toList, .dir t0), ("/d/x/f".toList, .file [7] t0), ("/t".toList, .file [] t0)]

/-- Source `/s` and destination `/d` both hold an empty directory `xy`; the
trash `/t` is empty. -/
def sameDir : World :=
  world [("/".toList, .dir t0), ("/s".toList, .dir t0), ("/s/xy".toList, .dir t0),
    ("/d".toList, .dir t0), ("/d/xy".toList, .dir t0), ("/t".toList, .dir t0)]

/-- Source `/s` holds the file `.secret`; destination and trash are empty. -/
def dotFile : World :=
  world [("/".toList, .dir t0), ("/s".toList, .dir t0), ("/s/.secret".toList, .file [1] t0),
    ("/d".toList, .dir t0), ("/t".toList, .dir t0)]

end Sample

end Xcp

/-! ## Vocabulary of the statements -/

namespace Xcp

/-- The path a call removes, if it is a removing call. -/
def Call.removes : Call → Option Str
  | .remove p => some p
  | .removeAll p => some p
  | _ => none

/-- From `w` to `w'` the limit of the system stayed the same, the changing
calls issued all satisfy `P`, and if none was issued the file system is the
same. -/
def Eff (P : Call → Prop) (w w' : World) : Prop :=
  w'.fs.pathMax = w.fs.pathMax ∧
  ∃ cs, w'.calls = w.calls ++ cs ∧ (∀ c ∈ cs, P c) ∧ (cs = [] → w'.fs = w.fs)

/-- The calls of a plain copy: only outside a dry run, and none removes. -/
def CopyCall (a : Args) (c : Call) : Prop := a.dryrun = false ∧ c.removes = none

/-- The calls of `backupFile`: those of a copy, and in sync mode the removal
of the file itself. -/
def BackupCall (a : Args) (mode : opMode) (path : Str) (c : Call) : Prop :=
  a.dryrun = false ∧
    (c.removes = none ∨ (mode = opMode.modeSync ∧ a.sync = true ∧ c = Call.remove path))

/-- The calls of `dirWalk`: only outside a dry run, and none removes unless
`sync` is on. -/
def WalkCall (a : Args) (c : Call) : Prop :=
  a.dryrun = false ∧ (a.sync = false → c.removes = none)

/-- What the loops need to know of the method `dirWalk`. -/
def WalkEff (walk : Walk) : Prop :=
  ∀ (a : Args) (p : Str) (w w' : World) (o : Outcome),
    walk a p w = (w', o) → Eff (WalkCall a) w w'

/-- `Inspected walk a srcDir dstDir files w name`: when the loop of `syncDir`,
started in world `w` on the entries `files`, comes to inspect an entry `name`,
line 269 `fileExists(srcPath)` answers false at that moment: `os.Stat` of the
path of that name in the source directory, which follows symbolic links, does
not find it. -/
inductive Inspected (walk : Walk) (a : Args) (srcDir dstDir : Str) :
    List Str → World → Str → Prop
  | here {name : Str} {rest : List Str} {w : World} :
      fileExists w.fs (Join [srcDir, name]) = false →
      Inspected walk a srcDir dstDir (name :: rest) w name
  | later {n name : Str} {rest : List Str} {w w1 : World} :
      syncEntry walk a srcDir dstDir n w = (w1, none) →
      Inspected walk a srcDir dstDir rest w1 name →
      Inspected walk a srcDir dstDir (n :: rest) w name

/-- The calls of one round of the loop of `syncDir` that starts in `w`. -/
def SyncCall (a : Args) (srcDir dstDir name : Str) (w : World) (c : Call) : Prop :=
  a.dryrun = false ∧
    (c.removes = none ∨
      (c.removes = some (Join [dstDir, name]) ∧ fileExists w.fs (Join [srcDir, name]) = false))

/-- The calls of the loop of `syncDir` that starts in `w` on `files`. -/
def LoopCall (walk : Walk) (a : Args) (srcDir dstDir : Str) (files : List Str) (w : World)
    (c : Call) : Prop :=
  a.dryrun = false ∧
    (c.removes = none ∨
      ∃ name, name ∈ files ∧ c.removes = some (Join [dstDir, name]) ∧
        Inspected walk a srcDir dstDir files w name)

/-- The calls of `syncDir a srcDir` started in `w`: a removing call is issued
only with `sync` on, and only for the path of an entry of the directory
`Join(a.dst, srcDir[len(a.src):])` whose name `fileExists` did not find in
`srcDir` when inspected. -/
def DirCall (walk : Walk) (a : Args) (srcDir : Str) (w : World) (c : Call) : Prop :=
  a.dryrun = false ∧
    (c.removes = none ∨
      (a.sync = true ∧ ∃ rel files name,
        sliceFrom srcDir a.src.length = some rel ∧
        w.fs.ReadDir (Join [a.dst, rel]) = .ok files ∧ name ∈ files ∧
        c.removes = some (Join [Join [a.dst, rel], name]) ∧
        Inspected walk a srcDir (Join [a.dst, rel]) files
          (w.send [opMode.modeSync.string, srcDir, Join [a.dst, rel]]) name))

/-- Every element is a name a directory entry can have. -/
def Names (cs : List Str) : Prop := ∀ c ∈ cs, validName c = true

/-- The non-empty pieces of a path name. -/
def comps (p : Str) : List Str := (splitSep p).filter (fun c => ¬ c = [])

/-- Pieces that are empty or good names. -/
def Tame (p : Str) : Prop := ∀ c ∈ splitSep p, c = [] ∨ validName c = true

/-- The call returned to its caller (with an error or with `nil`): it did not
panic, and the budget of the model was not used up. -/
def Outcome.Returns (o : Outcome) : Prop := ∃ e, o = .ret e

/-- The path `path` lies in the tree of the source root, `R` elements below
it; the roots the run slices names with are clean absolute path names. -/
def Rooted (a : Args) (path : Str) (R : List Str) : Prop :=
  Names R ∧ ∃ S, Names S ∧ a.src = absPath S ∧ path = absPath (S ++ R) ∧
    ((a.backup = true ∨ a.sync = true) → ∃ D, Names D ∧ a.dst = absPath D)

/-- The budget `dirWalk a path` needs when the limit of the system is `pm`. -/
def need (a : Args) (path : Str) (pm : Nat) : Nat :=
  (if a.sync = true then pm + 3 else 0) + (pm + 1 - path.length) + 1

/-- With budget `k` the method `walk` returns on every path of the source tree
whose need is within `k`. -/
def WalkSafe (walk : Walk) (pm k : Nat) : Prop :=
  ∀ (a : Args) (p : Str) (R : List Str) (w w' : World) (o : Outcome),
    Rooted a p R → w.fs.pathMax = pm → need a p pm ≤ k → walk a p w = (w', o) → o.Returns

/-- A clean absolute path name: it starts at the root and `filepath.Clean`
leaves it as it is. -/
def IsCleanAbs (p : Str) : Prop := p.head? = some Separator ∧ Clean p = p

/-- The error policy of the two loops: with `ignore` the error is sent on the
message channel (it is the next message after those sent so far) and the loop
goes on with the next entry; without it the method returns the error, wrapped
by `newError` at `line`, and sends nothing. -/
def errorPolicy (a : Args) (line : Nat) (w : World) (e : Error) : World × Option Outcome :=
  if a.ignore = true then ({ w with out := w.out ++ [Msg.error e] }, none)
  else (w, some (.ret (some (.wrapped line e))))

end Xcp

/-! # Theorems -/

namespace Xcp

open Sample

/-! ## Base names and backup names -/

@[simp] theorem send_fs (w : World) (o : List Str) : (w.send o).fs = w.fs := rfl
@[simp] theorem send_calls (w : World) (o : List Str) : (w.send o).calls = w.calls := rfl
@[simp] theorem send_out (w : World) (o : List Str) : (w.send o).out = w.out ++ [Msg.words o] := rfl
@[simp] theorem sendError_fs (w : World) (e : Error) : (w.sendError e).fs = w.fs := rfl
@[simp] theorem sendError_calls (w : World) (e : Error) : (w.sendError e).calls = w.calls := rfl
@[simp] theorem sendError_out (w : World) (e : Error) :
    (w.sendError e).out = w.out ++ [Msg.error e] := rfl

theorem fileExists_of_Stat {fs : FS} {p : Str} {n : Node} (h : fs.Stat p = .ok n) :
    fileExists fs p = true := by
  simp [fileExists, h]

/-- C3, amended.  With `backup` (back up on overwrite) and `modified` (compare
size and time) both on: when the resolved source and the existing destination
have the same size and the same modification instant, `copy` sends `target`
and `skip` and returns `nil`; the file system is as before and no changing call
is issued (no copy, no backup). -/
theorem copy_skips_unchanged (a : Args) (path rel entity : Str) (info1 info2 : Node)
    (w : World) (hmod : a.modified = true) (hbak : a.backup = true)
    (hrel : sliceFrom path a.src.length = some rel)
    (hent : w.fs.EvalSymlinks path = .ok entity)
    (h1 : w.fs.Stat entity = .ok info1)
    (h2 : w.fs.Stat (Join [a.dst, rel]) = .ok info2)
    (hsize : info1.Size = info2.Size)
    (htime : info1.ModTime.instant = info2.ModTime.instant) :
    copy a path w =
      ({ w with
          out := w.out ++ [Msg.words ["target".toList, path, Join [a.dst, rel]],
                           Msg.words ["skip".toList, entity, Join [a.dst, rel]]] },
       .ret none) := by
  have hex := fileExists_of_Stat h2
  simp [copy, hrel, hent, copyBackup, hbak, hex, h1, h2, hmod, hsize, Time.sameInstant, htime,
    World.send]

/-- C3, amended, at a concrete input: `/s/a.txt` in `Sample.staleFile`, whose
destination `/d/a.txt` has the same size and time, is skipped. -/
theorem copy_skips_unchanged_witness :
    copy { plain with modified := true, backup := true } "/s/a.txt".toList staleFile =
      ({ staleFile with
          out := staleFile.out ++
            [Msg.words ["target".toList, "/s/a.txt".toList, Join ["/d".toList, "/a.txt".toList]],
             Msg.words ["skip".toList, "/s/a.txt".toList, Join ["/d".toList, "/a.txt".toList]]] },
       .ret none) :=
  copy_skips_unchanged { plain with modified := true, backup := true } "/s/a.txt".toList
    "/a.txt".toList "/s/a.txt".toList (.file [1] t0) (.file [1] t0) staleFile rfl rfl
    (by decide) (by decide) (by decide) (by decide) rfl rfl

/-- C10, amended.  Whatever the options and the budget: when `os.Stat` of the
source root fails, `Xcpdir` returns that error (line 411); when the source root
exists and is not a directory, it returns the "is not a directory" error (line
414).  In both cases the world is returned as it was: nothing is sent, nothing
is called, `syncDir` and `dirWalk` are not run.  When the source root is a
directory, the result is that of `syncDir` and `dirWalk` on it. -/
theorem Xcpdir_root_validation (n : Nat) (a : Args) (w : World) :
    (∀ e, w.fs.Stat a.src = .error e →
      Xcpdir n a w = (w, .ret (some (.wrapped 411 e))))
    ∧ (∀ info, w.fs.Stat a.src = .ok info → info.IsDir = false →
      Xcpdir n a w = (w, .ret (some (.wrapped 414 (.notDirectory a.src)))))
    ∧ (∀ info, w.fs.Stat a.src = .ok info → info.IsDir = true →
      Xcpdir n a w =
        match syncDir (dirWalk n) a a.src w with
        | (w1, .ret (some e)) => (w1, .ret (some (.wrapped 418 e)))
        | (w1, .ret none) => dirWalk n a a.src w1
        | (w1, o) => (w1, o)) := by
  refine ⟨?_, ?_, ?_⟩
  · intro e h; simp [Xcpdir, h, newError]
  · intro info h hd; simp [Xcpdir, h, hd, newError]
  · intro info h hd
    simp only [Xcpdir, h, hd, newError]
    rfl

/-- C10, amended, at a concrete input: the source root `/s/.secret` of
`Sample.dotFile` is a regular file, and best effort is on. -/
theorem Xcpdir_root_validation_witness :
    Xcpdir 8 { plain with src := "/s/.secret".toList, ignore := true } dotFile
      = (dotFile, .ret (some (.wrapped 414 (.notDirectory "/s/.secret".toList)))) :=
  (Xcpdir_root_validation 8 { plain with src := "/s/.secret".toList, ignore := true }
    dotFile).2.1 (.file [1] t0) (by decide) rfl

/-! ## The model of the operating system -/

theorem dropWhile_length_le {α : Type} (p : α → Bool) (l : List α) :
    (l.dropWhile p).length ≤ l.length := by
  induction l with
  | nil => simp
  | cons a l ih =>
    simp only [List.dropWhile]
    split
    · simp only [List.length_cons]; omega
    · simp

/-- The budget of `FS.mkdirAllLoop` does not matter once it exceeds the length
of the path: the recursion is on a shorter path each time. -/
theorem mkdirAllLoop_budget (k k2 : Nat) (fs : FS) (path : Str)
    (hk : path.length < k) (hk2 : path.length < k2) :
    FS.mkdirAllLoop k fs path = FS.mkdirAllLoop k2 fs path := by
  induction k generalizing k2 path with
  | zero => omega
  | succ k ih =>
    cases k2 with
    | zero => omega
    | succ k2 =>
      unfold FS.mkdirAllLoop
      split
      · rfl
      · simp only
        have hj : ((path.reverse.dropWhile (fun c => c = Separator)).dropWhile
            (fun c => ¬ c = Separator)).length ≤ path.length := by
          refine le_trans (dropWhile_length_le _ _) (le_trans (dropWhile_length_le _ _) ?_)
          simp
        by_cases h1 : 1 < ((path.reverse.dropWhile (fun c => c = Separator)).dropWhile
            (fun c => ¬ c = Separator)).length
        · rw [if_pos h1, if_pos h1]
          rw [ih k2 (path.take _) (by rw [List.length_take]; omega)
            (by rw [List.length_take]; omega)]
        · rw [if_neg h1, if_neg h1]

/-! ## Effects: which changing calls a function issues -/

theorem Eff.refl (P : Call → Prop) (w : World) : Eff P w w :=
  ⟨rfl, [], by simp, by simp, fun _ => rfl⟩

theorem Eff.trans {P : Call → Prop} {w w' w'' : World} (h : Eff P w w') (h' : Eff P w' w'') :
    Eff P w w'' := by
  obtain ⟨hp, cs, hc, hP, hf⟩ := h
  obtain ⟨hp', cs', hc', hP', hf'⟩ := h'
  refine ⟨hp'.trans hp, cs ++ cs', by rw [hc', hc, List.append_assoc], ?_, ?_⟩
  · intro c hc
    rcases List.mem_append.1 hc with h | h
    · exact hP c h
    · exact hP' c h
  · intro h
    have h1 : cs = [] := (List.append_eq_nil.1 h).1
    have h2 : cs' = [] := (List.append_eq_nil.1 h).2
    rw [hf' h2, hf h1]

theorem Eff.mono {P Q : Call → Prop} {w w' : World} (h : Eff P w w') (hPQ : ∀ c, P c → Q c) :
    Eff Q w w' := by
  obtain ⟨hp, cs, hc, hP, hf⟩ := h
  exact ⟨hp, cs, hc, fun c hc => hPQ c (hP c hc), hf⟩

theorem Eff.send {P : Call → Prop} {w w' : World} (h : Eff P w w') (o : List Str) :
    Eff P w (w'.send o) := h

theorem Eff.sendError {P : Call → Prop} {w w' : World} (h : Eff P w w') (e : Error) :
    Eff P w (w'.sendError e) := h

theorem put_pathMax (fs : FS) (k : Str) (n : Node) : (fs.put k n).pathMax = fs.pathMax := rfl

theorem Mkdir_pathMax (fs : FS) (p : Str) : (fs.Mkdir p).1.pathMax = fs.pathMax := by
  unfold FS.Mkdir
  split
  · rfl
  · split
    · rfl
    · dsimp only
      repeat' split
      all_goals rfl

theorem mkdirAllLoop_pathMax (k : Nat) (fs : FS) (p : Str) :
    (FS.mkdirAllLoop k fs p).1.pathMax = fs.pathMax := by
  induction k generalizing fs p with
  | zero => rfl
  | succ k ih =>
    unfold FS.mkdirAllLoop
    split
    · split <;> rfl
    · simp only
      split
      · next fs1 e h1 =>
        have hp : fs1.pathMax = fs.pathMax := by
          split at h1
          · have := ih fs (p.take ((((p.reverse.dropWhile (fun c => c = Separator)).dropWhile
              (fun c => ¬ c = Separator)).length) - 1))
            rw [h1] at this; exact this
          · cases h1
        exact hp
      · next fs1 h1 =>
        have hp : fs1.pathMax = fs.pathMax := by
          split at h1
          · have := ih fs (p.take ((((p.reverse.dropWhile (fun c => c = Separator)).dropWhile
              (fun c => ¬ c = Separator)).length) - 1))
            rw [h1] at this; exact this
          · cases h1; rfl
        have hm := Mkdir_pathMax fs1 p
        split
        · next fs2 h2 => rw [h2] at hm; exact hm.trans hp
        · next fs2 e h2 =>
          rw [h2] at hm
          have hm2 : fs2.pathMax = fs.pathMax := hm.trans hp
          split
          · split <;> exact hm2
          · exact hm2

theorem MkdirAll_pathMax (fs : FS) (p : Str) : (fs.MkdirAll p).1.pathMax = fs.pathMax :=
  mkdirAllLoop_pathMax _ _ _

theorem createLoop_pathMax (fs : FS) (name : Str) (k : Nat) (cur comps : List Str) :
    (fs.createLoop name k cur comps).1.pathMax = fs.pathMax := by
  induction k generalizing cur comps with
  | zero => rfl
  | succ k ih =>
    unfold FS.createLoop
    repeat' split
    all_goals first | rfl | exact ih _ _

theorem Create_pathMax (fs : FS) (p : Str) : (fs.Create p).1.pathMax = fs.pathMax := by
  unfold FS.Create
  split
  · rfl
  · split
    · rfl
    · exact createLoop_pathMax _ _ _ _ _

theorem ioCopy_pathMax (fs : FS) (d s : Str) :
    (fs.ioCopy d s).1.pathMax = fs.pathMax := by
  unfold FS.ioCopy
  repeat' split
  all_goals rfl

theorem Chtimes_pathMax (fs : FS) (p : Str) (t : Time) :
    (fs.Chtimes p t).1.pathMax = fs.pathMax := by
  unfold FS.Chtimes
  split <;> rfl

theorem Remove_pathMax (fs : FS) (p : Str) : (fs.Remove p).1.pathMax = fs.pathMax := by
  unfold FS.Remove
  repeat' split
  all_goals rfl

theorem removeAllFrom_pathMax (fs : FS) (pd : Str) (cur : List Str) (n : Node) (b : Str) :
    (fs.removeAllFrom pd cur n b).1.pathMax = fs.pathMax := by
  unfold FS.removeAllFrom
  repeat' split
  all_goals rfl

theorem RemoveAll_pathMax (fs : FS) (p : Str) : (fs.RemoveAll p).1.pathMax = fs.pathMax := by
  unfold FS.RemoveAll
  split
  · rfl
  · split
    · rfl
    · have hr := Remove_pathMax fs p
      split
      · next fs1 h1 => rw [h1] at hr; exact hr
      · rfl
      · split
        · rfl
        · rfl
        · exact removeAllFrom_pathMax _ _ _ _ _

/-- A single changing call that satisfies the policy. -/
theorem Eff.call {P : Call → Prop} {w w' : World} (c : Call) (hP : P c)
    (hp : w'.fs.pathMax = w.fs.pathMax) (hc : w'.calls = w.calls ++ [c]) : Eff P w w' :=
  ⟨hp, [c], hc, by simpa using hP, by simp⟩

theorem MkdirAll_eff {P : Call → Prop} {w w' : World} {p : Str} {e : Option Error}
    (h : w.MkdirAll p = (w', e)) (hP : P (.mkdirAll p)) : Eff P w w' := by
  cases h; exact Eff.call _ hP (MkdirAll_pathMax _ _) rfl

theorem Create_eff {P : Call → Prop} {w w' : World} {p : Str} {e : Option Error}
    (h : w.Create p = (w', e)) (hP : P (.create p)) : Eff P w w' := by
  cases h; exact Eff.call _ hP (Create_pathMax _ _) rfl

theorem ioCopy_eff {P : Call → Prop} {w w' : World} {d s : Str} {e : Option Error}
    (h : w.ioCopy d s = (w', e)) (hP : P (.write d)) : Eff P w w' := by
  cases h; exact Eff.call _ hP (ioCopy_pathMax _ _ _) rfl

theorem Chtimes_eff {P : Call → Prop} {w w' : World} {p : Str} {t : Time} {e : Option Error}
    (h : w.Chtimes p t = (w', e)) (hP : P (.chtimes p t)) : Eff P w w' := by
  cases h; exact Eff.call _ hP (Chtimes_pathMax _ _ _) rfl

theorem Remove_eff {P : Call → Prop} {w w' : World} {p : Str} {e : Option Error}
    (h : w.Remove p = (w', e)) (hP : P (.remove p)) : Eff P w w' := by
  cases h; exact Eff.call _ hP (Remove_pathMax _ _) rfl

theorem RemoveAll_eff {P : Call → Prop} {w w' : World} {p : Str} {e : Option Error}
    (h : w.RemoveAll p = (w', e)) (hP : P (.removeAll p)) : Eff P w w' := by
  cases h; exact Eff.call _ hP (RemoveAll_pathMax _ _) rfl

theorem copyFileMkdir_eff {a : Args} {d : Str} {w w' : World} {e : Option Error}
    (h : copyFileMkdir a d w = (w', e)) : Eff (CopyCall a) w w' := by
  unfold copyFileMkdir at h
  simp only at h
  split at h
  · split at h
    · next hd => exact ((Eff.refl _ w).send _).trans (MkdirAll_eff h ⟨by simpa using hd, rfl⟩)
    · cases h; exact (Eff.refl _ w).send _
  · cases h; exact Eff.refl _ w

theorem copyFile_eff {a : Args} {s d : Str} {w w' : World} {o : Outcome}
    (h : copyFile a s d w = (w', o)) : Eff (CopyCall a) w w' := by
  unfold copyFile at h
  split at h
  · cases h; exact Eff.refl _ w
  · split at h
    · next hm => cases h; exact copyFileMkdir_eff hm
    · next w1 hm =>
      have h1 := copyFileMkdir_eff hm
      simp only at h
      split at h
      · cases h; exact h1.send _
      · next hd =>
        have hd' : a.dryrun = false := by simpa using hd
        have h2 : Eff (CopyCall a) w (w1.send ["copy".toList, s, d]) := h1.send _
        split at h
        · cases h; exact h2
        · split at h
          · next hc => cases h; exact h2.trans (Create_eff hc ⟨hd', rfl⟩)
          · next hc =>
            have h3 := h2.trans (Create_eff hc ⟨hd', rfl⟩)
            split at h
            · next hi => cases h; exact h3.trans (ioCopy_eff hi ⟨hd', rfl⟩)
            · next hi =>
              have h4 := h3.trans (ioCopy_eff hi ⟨hd', rfl⟩)
              split at h
              · next ht => cases h; exact (h4.trans (Chtimes_eff ht ⟨hd', rfl⟩)).sendError _
              · next ht => cases h; exact h4.trans (Chtimes_eff ht ⟨hd', rfl⟩)

theorem CopyCall.backup {a : Args} {mode : opMode} {path : Str} {c : Call}
    (h : CopyCall a c) : BackupCall a mode path c := ⟨h.1, Or.inl h.2⟩

theorem backupFile_eff {a : Args} {m : opMode} {p : Str} {w w' : World} {o : Outcome}
    (h : backupFile a m p w = (w', o)) : Eff (BackupCall a m p) w w' := by
  unfold backupFile at h
  split at h
  · cases h; exact Eff.refl _ w
  · simp only at h
    split at h
    · cases h; exact Eff.refl _ w
    · split at h
      · next hc => cases h; exact ((copyFile_eff hc).mono fun _ => CopyCall.backup)
      · next hc =>
        have h1 : Eff (BackupCall a m p) w _ := (copyFile_eff hc).mono fun _ => CopyCall.backup
        split at h
        · next hs =>
          simp only [Bool.and_eq_true, beq_iff_eq] at hs
          split at h
          · next hd =>
            have hd' : a.dryrun = false := by simpa using hd
            split at h
            · next hr =>
              cases h
              exact (h1.send _).trans (Remove_eff hr ⟨hd', Or.inr ⟨hs.2, hs.1, rfl⟩⟩)
            · next hr =>
              cases h
              exact (h1.send _).trans (Remove_eff hr ⟨hd', Or.inr ⟨hs.2, hs.1, rfl⟩⟩)
          · cases h; exact h1.send _
        · cases h; exact h1
      · next hc => cases h; exact ((copyFile_eff hc).mono fun _ => CopyCall.backup)

theorem copyBackup_eff {a : Args} {e d : Str} {w w' : World} {o : Option Outcome}
    (h : copyBackup a e d w = (w', o)) : Eff (CopyCall a) w w' := by
  have hb : ∀ {w' o}, backupFile a opMode.modeBackup d w = (w', o) → Eff (CopyCall a) w w' :=
    fun hb => (backupFile_eff hb).mono fun c hc =>
      ⟨hc.1, hc.2.elim id (fun h => by cases h.1)⟩
  unfold copyBackup at h
  split at h
  · split at h
    · cases h; exact Eff.refl _ w
    · split at h
      · cases h; exact Eff.refl _ w
      · split at h
        · cases h; exact (Eff.refl _ w).send _
        · split at h
          · next h1 => cases h; exact hb h1
          · next h1 => cases h; exact hb h1
          · next h1 => cases h; exact hb h1
  · cases h; exact Eff.refl _ w

theorem copy_eff {a : Args} {p : Str} {w w' : World} {o : Outcome}
    (h : copy a p w = (w', o)) : Eff (CopyCall a) w w' := by
  unfold copy at h
  split at h
  · cases h; exact Eff.refl _ w
  · simp only at h
    split at h
    · cases h; exact (Eff.refl _ w).send _
    · split at h
      · next hb => cases h; exact ((Eff.refl _ w).send _).trans (copyBackup_eff hb)
      · next hb =>
        exact (((Eff.refl _ w).send _).trans (copyBackup_eff hb)).trans (copyFile_eff h)

theorem syncEntry_present (walk : Walk) (a : Args) (s d n : Str) (w : World)
    (h : fileExists w.fs (Join [s, n]) = true) : syncEntry walk a s d n w = (w, none) := by
  simp [syncEntry, h]

theorem syncEntry_eff {walk : Walk} (hw : WalkEff walk) {a : Args} {s d n : Str}
    {w w' : World} {o : Option Outcome} (h : syncEntry walk a s d n w = (w', o)) :
    Eff (SyncCall a s d n w) w w' := by
  by_cases hex : fileExists w.fs (Join [s, n]) = true
  · rw [syncEntry_present walk a s d n w hex] at h
    cases h; exact Eff.refl _ w
  · have hex' : fileExists w.fs (Join [s, n]) = false := by simpa using hex
    have hwalk : ∀ {a2 : Args} {p : Str} {w1 w2 : World} {o2 : Outcome},
        walk a2 p w1 = (w2, o2) → a2.dryrun = a.dryrun → a2.sync = false →
        Eff (SyncCall a s d n w) w1 w2 := by
      intro a2 p w1 w2 o2 hr hd hs
      exact (hw _ _ _ _ _ hr).mono fun c hc => ⟨hd ▸ hc.1, Or.inl (hc.2 hs)⟩
    have hbak : ∀ {w2 : World} {o2 : Outcome},
        backupFile a opMode.modeSync (Join [d, n]) w = (w2, o2) →
        Eff (SyncCall a s d n w) w w2 := by
      intro w2 o2 hr
      refine (backupFile_eff hr).mono fun c hc => ⟨hc.1, ?_⟩
      rcases hc.2 with h | ⟨_, _, rfl⟩
      · exact Or.inl h
      · exact Or.inr ⟨rfl, hex'⟩
    unfold syncEntry at h
    simp only [hex', Bool.false_eq_true, if_false] at h
    split at h
    · split at h
      · cases h; exact (Eff.refl _ w).sendError _
      · cases h; exact Eff.refl _ w
    · split at h
      · split at h
        · cases h; exact Eff.refl _ w
        · split at h
          · next hr =>
            have h1 := ((Eff.refl (SyncCall a s d n w) w).send _).trans (hwalk hr rfl rfl)
            split at h
            · cases h; exact h1.sendError _
            · cases h; exact h1
          · next hr =>
            have h1 := ((Eff.refl (SyncCall a s d n w) w).send _).trans (hwalk hr rfl rfl)
            split at h
            · next hd =>
              have hd' : a.dryrun = false := by simpa using hd
              split at h
              · next hrm =>
                have h2 := (h1.send _).trans
                  (RemoveAll_eff (P := SyncCall a s d n w) hrm ⟨hd', Or.inr ⟨rfl, hex'⟩⟩)
                split at h
                · cases h; exact h2.sendError _
                · cases h; exact h2
              · next hrm =>
                cases h
                exact (h1.send _).trans
                  (RemoveAll_eff (P := SyncCall a s d n w) hrm ⟨hd', Or.inr ⟨rfl, hex'⟩⟩)
            · cases h; exact h1.send _
          · next hr =>
            cases h
            exact ((Eff.refl (SyncCall a s d n w) w).send _).trans (hwalk hr rfl rfl)
      · split at h
        · next hr =>
          split at h
          · cases h; exact (hbak hr).sendError _
          · cases h; exact hbak hr
        · next hr => cases h; exact hbak hr
        · next hr => cases h; exact hbak hr

theorem syncLoop_eff {walk : Walk} (hw : WalkEff walk) {a : Args} {s d : Str}
    (files : List Str) {w w' : World} {o : Option Outcome}
    (h : syncLoop walk a s d files w = (w', o)) : Eff (LoopCall walk a s d files w) w w' := by
  induction files generalizing w with
  | nil =>
    unfold syncLoop at h
    cases h; exact Eff.refl _ _
  | cons n rest ih =>
    unfold syncLoop at h
    have hhead : ∀ {w1 o1}, syncEntry walk a s d n w = (w1, o1) →
        Eff (LoopCall walk a s d (n :: rest) w) w w1 := by
      intro w1 o1 he
      refine (syncEntry_eff hw he).mono fun c hc => ⟨hc.1, ?_⟩
      rcases hc.2 with h | ⟨h, hx⟩
      · exact Or.inl h
      · exact Or.inr ⟨n, List.mem_cons_self _ _, h, Inspected.here hx⟩
    split at h
    · next w1 he =>
      refine (hhead he).trans ((ih h).mono fun c hc => ⟨hc.1, ?_⟩)
      rcases hc.2 with h | ⟨name, hm, hr, hi⟩
      · exact Or.inl h
      · exact Or.inr ⟨name, List.mem_cons_of_mem _ hm, hr, Inspected.later he hi⟩
    · next he => cases h; exact hhead he

theorem syncDir_eff {walk : Walk} (hw : WalkEff walk) {a : Args} {s : Str}
    {w w' : World} {o : Outcome} (h : syncDir walk a s w = (w', o)) :
    Eff (DirCall walk a s w) w w' := by
  unfold syncDir at h
  split at h
  · cases h; exact Eff.refl _ w
  · next hs =>
    have hs' : a.sync = true := by simpa using hs
    split at h
    · cases h; exact Eff.refl _ w
    · next rel hrel =>
      simp only at h
      split at h
      · cases h; exact Eff.refl _ w
      · split at h
        · split at h
          · cases h; exact (Eff.refl _ w).sendError _
          · cases h; exact Eff.refl _ w
        · next files hrd =>
          have key : ∀ {w2 o2}, syncLoop walk a s (Join [a.dst, rel]) files
              (w.send [opMode.modeSync.string, s, Join [a.dst, rel]]) = (w2, o2) →
              Eff (DirCall walk a s w) w w2 := by
            intro w2 o2 hl
            refine ((Eff.refl _ w).send _).trans ((syncLoop_eff hw files hl).mono
              fun c hc => ⟨hc.1, ?_⟩)
            rcases hc.2 with h | ⟨name, hm, hr, hi⟩
            · exact Or.inl h
            · exact Or.inr ⟨hs', rel, files, name, hrel, hrd, hm, hr, hi⟩
          split at h
          · next hl => cases h; exact key hl
          · next hl => cases h; exact key hl

theorem DirCall.toWalk {walk : Walk} {a : Args} {s : Str} {w : World} {c : Call}
    (h : DirCall walk a s w c) : WalkCall a c := by
  refine ⟨h.1, fun hs => ?_⟩
  rcases h.2 with h | ⟨h, _⟩
  · exact h
  · rw [hs] at h; cases h

theorem CopyCall.asWalk {a : Args} {c : Call} (h : CopyCall a c) : WalkCall a c :=
  ⟨h.1, fun _ => h.2⟩

theorem dirWalkEntry_eff {walk : Walk} (hw : WalkEff walk) {a : Args} {dir n : Str}
    {w w' : World} {o : Option Outcome} (h : dirWalkEntry walk a dir n w = (w', o)) :
    Eff (WalkCall a) w w' := by
  have hsync : ∀ {p : Str} {w1 w2 : World} {o2 : Outcome},
      syncDir walk a p w1 = (w2, o2) → Eff (WalkCall a) w1 w2 :=
    fun hr => (syncDir_eff hw hr).mono fun _ => DirCall.toWalk
  have hcopy : ∀ {p : Str} {w1 w2 : World} {o2 : Outcome},
      copy a p w1 = (w2, o2) → Eff (WalkCall a) w1 w2 :=
    fun hr => (copy_eff hr).mono fun _ => CopyCall.asWalk
  unfold dirWalkEntry at h
  simp only at h
  split at h
  · split at h
    · cases h; exact (Eff.refl _ w).sendError _
    · cases h; exact Eff.refl _ w
  · split at h
    · cases h; exact Eff.refl _ w
    · split at h
      · cases h; exact (Eff.refl _ w).sendError _
      · cases h; exact Eff.refl _ w
    · split at h
      · cases h; exact Eff.refl _ w
      · split at h
        · split at h
          · next hr =>
            split at h
            · cases h; exact (hsync hr).sendError _
            · cases h; exact hsync hr
          · next hr =>
            split at h
            · next hr2 =>
              split at h
              · cases h; exact ((hsync hr).trans (hw _ _ _ _ _ hr2)).sendError _
              · cases h; exact (hsync hr).trans (hw _ _ _ _ _ hr2)
            · next hr2 => cases h; exact (hsync hr).trans (hw _ _ _ _ _ hr2)
            · next hr2 => cases h; exact (hsync hr).trans (hw _ _ _ _ _ hr2)
          · next hr => cases h; exact hsync hr
        · split at h
          · next hr =>
            split at h
            · cases h; exact (hcopy hr).sendError _
            · cases h; exact hcopy hr
          · next hr => cases h; exact hcopy hr
          · next hr => cases h; exact hcopy hr

theorem dirWalkLoop_eff {walk : Walk} (hw : WalkEff walk) {a : Args} {dir : Str}
    (files : List Str) {w w' : World} {o : Option Outcome}
    (h : dirWalkLoop walk a dir files w = (w', o)) : Eff (WalkCall a) w w' := by
  induction files generalizing w with
  | nil => unfold dirWalkLoop at h; cases h; exact Eff.refl _ _
  | cons n rest ih =>
    unfold dirWalkLoop at h
    split at h
    · next he => exact (dirWalkEntry_eff hw he).trans (ih h)
    · next he => cases h; exact dirWalkEntry_eff hw he

theorem dirWalk_eff (n : Nat) : WalkEff (dirWalk n) := by
  induction n with
  | zero =>
    intro a p w w' o h
    unfold dirWalk at h
    cases h; exact Eff.refl _ w
  | succ n ih =>
    intro a p w w' o h
    unfold dirWalk at h
    split at h
    · split at h
      · cases h; exact (Eff.refl _ w).sendError _
      · cases h; exact Eff.refl _ w
    · split at h
      · next hl => cases h; exact dirWalkLoop_eff ih _ hl
      · next hl => cases h; exact dirWalkLoop_eff ih _ hl

theorem Xcpdir_eff {n : Nat} {a : Args} {w w' : World} {o : Outcome}
    (h : Xcpdir n a w = (w', o)) : Eff (WalkCall a) w w' := by
  have hsync : ∀ {w2 : World} {o2 : Outcome},
      syncDir (dirWalk n) a a.src w = (w2, o2) → Eff (WalkCall a) w w2 :=
    fun hr => (syncDir_eff (dirWalk_eff n) hr).mono fun _ => DirCall.toWalk
  unfold Xcpdir at h
  split at h
  · cases h; exact Eff.refl _ w
  · split at h
    · cases h; exact Eff.refl _ w
    · split at h
      · next hr => cases h; exact hsync hr
      · next hr => exact (hsync hr).trans (dirWalk_eff n _ _ _ _ _ h)
      · next hr => cases h; exact hsync hr

/-! ## Dry run -/

theorem Eff.dry {P : Call → Prop} {w w' : World} {a : Args} (h : Eff P w w')
    (hP : ∀ c, P c → a.dryrun = false) (hd : a.dryrun = true) :
    w'.fs = w.fs ∧ w'.calls = w.calls := by
  obtain ⟨_, cs, hc, hall, hf⟩ := h
  have hnil : cs = [] := by
    cases cs with
    | nil => rfl
    | cons c cs =>
      have := hP c (hall c (List.mem_cons_self _ _))
      rw [hd] at this; cases this
  exact ⟨hf hnil, by rw [hc, hnil, List.append_nil]⟩

/-- C4.  With `dryrun` on, each of `copyFile`, `backupFile`, `copy`, `syncDir`,
`dirWalk` and `Xcpdir` (with any budget, and as a whole run) leaves the file
system exactly as it was and issues no changing system call: no `MkdirAll`, no
`Create`, no write, no `Chtimes`, no `Remove` and no `RemoveAll`. -/
theorem dryrun_changes_nothing (a : Args) (hd : a.dryrun = true) (n : Nat) (w : World)
    (s d p : Str) (m : opMode) :
    ((copyFile a s d w).1.fs = w.fs ∧ (copyFile a s d w).1.calls = w.calls)
    ∧ ((backupFile a m p w).1.fs = w.fs ∧ (backupFile a m p w).1.calls = w.calls)
    ∧ ((copy a p w).1.fs = w.fs ∧ (copy a p w).1.calls = w.calls)
    ∧ ((syncDir (dirWalk n) a p w).1.fs = w.fs ∧ (syncDir (dirWalk n) a p w).1.calls = w.calls)
    ∧ ((dirWalk n a p w).1.fs = w.fs ∧ (dirWalk n a p w).1.calls = w.calls)
    ∧ ((Xcpdir n a w).1.fs = w.fs ∧ (Xcpdir n a w).1.calls = w.calls)
    ∧ ((run a w).1.fs = w.fs ∧ (run a w).1.calls = w.calls) := by
  refine ⟨?_, ?_, ?_, ?_, ?_, ?_, ?_⟩
  · exact (copyFile_eff (a := a) rfl).dry (fun _ h => h.1) hd
  · exact (backupFile_eff (a := a) rfl).dry (fun _ h => h.1) hd
  · exact (copy_eff (a := a) rfl).dry (fun _ h => h.1) hd
  · exact (syncDir_eff (dirWalk_eff n) (a := a) rfl).dry (fun _ h => h.1) hd
  · exact (dirWalk_eff n a p w _ _ rfl).dry (fun _ h => h.1) hd
  · exact (Xcpdir_eff (a := a) rfl).dry (fun _ h => h.1) hd
  · exact (Xcpdir_eff (a := a) (n := budget w.fs) rfl).dry (fun _ h => h.1) hd

/-- C4 at a concrete input: a dry run over `Sample.staleFile` with backup and
sync on. -/
theorem dryrun_changes_nothing_witness :
    (run { plain with dryrun := true, backup := true, sync := true } staleFile).1.fs
        = staleFile.fs
    ∧ (run { plain with dryrun := true, backup := true, sync := true } staleFile).1.calls
        = staleFile.calls :=
  (dryrun_changes_nothing { plain with dryrun := true, backup := true, sync := true } rfl 0
    staleFile [] [] [] opMode.modeSync).2.2.2.2.2.2

/-! ## Algebra of clean absolute path names -/

theorem validName_iff (n : Str) :
    validName n = true ↔ n ≠ [] ∧ n ≠ ['.'] ∧ n ≠ ['.', '.'] ∧ Separator ∉ n := by
  simp [validName]

theorem splitSep_ne_nil (p : Str) : splitSep p ≠ [] := by
  cases p with
  | nil => simp [splitSep]
  | cons c cs =>
    unfold splitSep
    split
    · simp
    · split <;> simp

theorem splitSep_plain (s : Str) (h : Separator ∉ s) : splitSep s = [s] := by
  induction s with
  | nil => rfl
  | cons c s ih =>
    have hc : ¬ c = Separator := fun hc => h (by simp [hc])
    have hs : Separator ∉ s := fun hs => h (List.mem_cons_of_mem _ hs)
    simp [splitSep, hc, ih hs]

theorem splitSep_append_sep (a b : Str) :
    splitSep (a ++ Separator :: b) = splitSep a ++ splitSep b := by
  induction a with
  | nil => simp [splitSep]
  | cons c a ih =>
    by_cases hc : c = Separator
    · simp [splitSep, hc, ih]
    · simp only [List.cons_append, splitSep, hc, if_false]
      have ih' : splitSep (a.append (Separator :: b)) = splitSep a ++ splitSep b := ih
      rw [ih']
      have := splitSep_ne_nil a
      cases hsa : splitSep a with
      | nil => exact absurd hsa this
      | cons h t => simp

theorem comps_append_sep (a b : Str) : comps (a ++ Separator :: b) = comps a ++ comps b := by
  simp [comps, splitSep_append_sep]

theorem comps_nil : comps [] = [] := by simp [comps, splitSep]

theorem comps_name (n : Str) (h : validName n = true) : comps n = [n] := by
  have h' := (validName_iff n).1 h
  simp [comps, splitSep_plain n h'.2.2.2, h'.1]

theorem splitSep_joinSep (cs : List Str) (h : Names cs) (hne : cs ≠ []) :
    splitSep (joinSep cs) = cs := by
  induction cs with
  | nil => exact absurd rfl hne
  | cons c cs ih =>
    have hc := (validName_iff c).1 (h c (List.mem_cons_self _ _))
    cases cs with
    | nil => simpa [joinSep] using splitSep_plain c hc.2.2.2
    | cons d ds =>
      have := ih (fun x hx => h x (List.mem_cons_of_mem _ hx)) (by simp)
      simp only [joinSep]
      rw [splitSep_append_sep, splitSep_plain c hc.2.2.2]
      simp only [joinSep] at this
      rw [this]
      rfl

theorem comps_joinSep (cs : List Str) (h : Names cs) : comps (joinSep cs) = cs := by
  by_cases hne : cs = []
  · subst hne; simp [joinSep, comps_nil]
  · unfold comps
    rw [splitSep_joinSep cs h hne]
    apply List.filter_eq_self.2
    intro c hc
    simpa using ((validName_iff c).1 (h c hc)).1

theorem Tame.append_sep {a b : Str} (ha : Tame a) (hb : Tame b) : Tame (a ++ Separator :: b) := by
  intro c hc
  rw [splitSep_append_sep] at hc
  rcases List.mem_append.1 hc with h | h
  · exact ha c h
  · exact hb c h

theorem Tame.nil : Tame [] := by
  intro c hc
  simp [splitSep] at hc
  exact Or.inl hc

theorem Tame.joinSep {cs : List Str} (h : Names cs) : Tame (joinSep cs) := by
  by_cases hne : cs = []
  · subst hne; exact Tame.nil
  · intro c hc
    rw [splitSep_joinSep cs h hne] at hc
    exact Or.inr (h c hc)

theorem Tame.absPath {cs : List Str} (h : Names cs) : Tame (absPath cs) := by
  have := Tame.append_sep Tame.nil (Tame.joinSep h)
  simpa [Xcp.absPath] using this

theorem comps_absPath (cs : List Str) (h : Names cs) : comps (absPath cs) = cs := by
  have := comps_append_sep [] (joinSep cs)
  simp only [List.nil_append] at this
  rw [absPath, this, comps_nil, comps_joinSep cs h]
  rfl

theorem foldl_cleanStep (comps : List Str) (st : List Str)
    (h : ∀ c ∈ comps, c = [] ∨ validName c = true) :
    comps.foldl (cleanStep true) st = (comps.filter (fun c => ¬ c = [])).reverse ++ st := by
  induction comps generalizing st with
  | nil => simp
  | cons c cs ih =>
    have hcs : ∀ x ∈ cs, x = [] ∨ validName x = true := fun x hx => h x (List.mem_cons_of_mem _ hx)
    rw [List.foldl_cons, ih _ hcs]
    rcases h c (List.mem_cons_self _ _) with hc | hc
    · subst hc
      simp [cleanStep]
    · have hv := (validName_iff c).1 hc
      simp [cleanStep, hv.1, hv.2.1, hv.2.2.1]

/-- `filepath.Clean` of a rooted tame path name. -/
theorem Clean_tame (p : Str) (hr : p.head? = some Separator) (ht : Tame p) :
    Clean p = absPath (comps p) := by
  unfold Clean
  simp only [hr, if_true, decide_True]
  rw [foldl_cleanStep _ _ ht]
  simp [absPath, comps]

theorem Names.append {cs ds : List Str} (hc : Names cs) (hd : Names ds) : Names (cs ++ ds) := by
  intro c h
  rcases List.mem_append.1 h with h | h
  · exact hc c h
  · exact hd c h

theorem Names.single {n : Str} (h : validName n = true) : Names [n] := by
  intro c hc
  simp at hc
  subst hc; exact h

theorem absPath_ne_nil (cs : List Str) : absPath cs ≠ [] := by simp [absPath]

/-- `filepath.Join` of a clean absolute path and a tame rest. -/
theorem Join_abs (D : List Str) (hD : Names D) (rel : Str) (ht : Tame rel) :
    Join [absPath D, rel] = absPath (D ++ comps rel) := by
  have h1 : joinSep [absPath D, rel] = absPath D ++ Separator :: rel := rfl
  unfold Join
  rw [if_neg (absPath_ne_nil D), h1, Clean_tame _ (by simp [absPath])
    (Tame.append_sep (Tame.absPath hD) ht), comps_append_sep, comps_absPath D hD]

theorem Tame.name {n : Str} (h : validName n = true) : Tame n := by
  intro c hc
  rw [splitSep_plain n ((validName_iff n).1 h).2.2.2] at hc
  simp at hc
  subst hc; exact Or.inr h

theorem Join_abs_name (D : List Str) (hD : Names D) (n : Str) (hn : validName n = true) :
    Join [absPath D, n] = absPath (D ++ [n]) := by
  rw [Join_abs D hD n (Tame.name hn), comps_name n hn]

theorem joinSep_append (cs ds : List Str) (hc : cs ≠ []) (hd : ds ≠ []) :
    joinSep (cs ++ ds) = joinSep cs ++ Separator :: joinSep ds := by
  induction cs with
  | nil => exact absurd rfl hc
  | cons c cs ih =>
    cases cs with
    | nil =>
      cases ds with
      | nil => exact absurd rfl hd
      | cons d ds => simp [joinSep]
    | cons c' cs' =>
      have := ih (by simp)
      simp only [List.cons_append, joinSep] at this ⊢
      have this' : joinSep (c' :: cs'.append ds)
          = joinSep (c' :: cs') ++ Separator :: joinSep ds := this
      rw [this']
      simp

/-- A path below a clean absolute path: the rest after the upper path. -/
theorem absPath_append (S R : List Str) (hR : Names R) :
    ∃ rel, absPath (S ++ R) = absPath S ++ rel ∧ Tame rel ∧ comps rel = R := by
  by_cases hS : S = []
  · subst hS
    exact ⟨joinSep R, by simp [absPath, joinSep], Tame.joinSep hR, comps_joinSep R hR⟩
  · by_cases hR0 : R = []
    · subst hR0
      exact ⟨[], by simp, Tame.nil, comps_nil⟩
    · refine ⟨Separator :: joinSep R, ?_, ?_, ?_⟩
      · simp [absPath, joinSep_append S R hS hR0]
      · simpa using Tame.append_sep Tame.nil (Tame.joinSep hR)
      · have := comps_append_sep [] (joinSep R)
        simp only [List.nil_append] at this
        rw [this, comps_nil, comps_joinSep R hR]; rfl

theorem sliceFrom_append (a b : Str) : sliceFrom (a ++ b) a.length = some b := by
  simp [sliceFrom]

theorem absPath_length_le (S R : List Str) (hR : Names R) :
    (absPath S).length ≤ (absPath (S ++ R)).length := by
  obtain ⟨rel, h, _, _⟩ := absPath_append S R hR
  rw [h]; simp

theorem splitScan_plain (u r acc : Str) (hu : Separator ∉ u) :
    splitScan (u ++ r) acc = splitScan r (u.reverse ++ acc) := by
  induction u generalizing acc with
  | nil => simp
  | cons c u ih =>
    have hc : ¬ c = Separator := fun hc => hu (by simp [hc])
    have hu' : Separator ∉ u := fun h => hu (List.mem_cons_of_mem _ h)
    simp [splitScan, hc, ih _ hu']

theorem Split_append_sep (q n : Str) (hn : Separator ∉ n) :
    Split (q ++ Separator :: n) = (q ++ [Separator], n) := by
  unfold Split
  have : (q ++ Separator :: n).reverse = n.reverse ++ (Separator :: q.reverse) := by simp
  rw [this, splitScan_plain _ _ _ (by simpa using hn)]
  simp [splitScan]

theorem absPath_snoc (X : List Str) (n : Str) :
    absPath (X ++ [n]) = (if X = [] then [] else absPath X) ++ Separator :: n := by
  by_cases hX : X = []
  · subst hX; simp [absPath, joinSep]
  · simp [absPath, hX, joinSep_append X [n] hX (by simp), joinSep]

theorem Split_absPath_snoc (X : List Str) (n : Str) (hn : validName n = true) :
    (absPath X).length ≤ (Split (absPath (X ++ [n]))).1.length := by
  rw [absPath_snoc, Split_append_sep _ _ ((validName_iff n).1 hn).2.2.2]
  by_cases hX : X = []
  · subst hX; simp [absPath, joinSep]
  · simp [hX]

theorem absPath_snoc_length (X : List Str) (n : Str) (hn : validName n = true) :
    (absPath X).length < (absPath (X ++ [n])).length := by
  have hne : n ≠ [] := ((validName_iff n).1 hn).1
  have : 0 < n.length := List.length_pos.2 hne
  rw [absPath_snoc]
  by_cases hX : X = []
  · subst hX; simp [absPath, joinSep]
    omega
  · simp [hX]

/-- The directory part of a path strictly below a clean absolute path is at
least as long as the upper path. -/
theorem Split_absPath_below (D R : List Str) (hR : Names R) (hne : R ≠ []) :
    (absPath D).length ≤ (Split (absPath (D ++ R))).1.length := by
  obtain ⟨R', n, rfl⟩ : ∃ R' n, R = R' ++ [n] :=
    ⟨R.dropLast, R.getLast hne, (List.dropLast_append_getLast hne).symm⟩
  have hn : validName n = true := hR n (by simp)
  have hR' : Names R' := fun c hc => hR c (List.mem_append_left _ hc)
  rw [← List.append_assoc]
  exact le_trans (absPath_length_le D R' hR') (Split_absPath_snoc (D ++ R') n hn)

theorem mem_insertName (n m : Str) (l : List Str) (h : m ∈ insertName n l) : m = n ∨ m ∈ l := by
  induction l with
  | nil => simp [insertName] at h; exact Or.inl h
  | cons x xs ih =>
    unfold insertName at h
    split at h
    · rcases List.mem_cons.1 h with h | h
      · exact Or.inl h
      · exact Or.inr h
    · rcases List.mem_cons.1 h with h | h
      · exact Or.inr (by simp [h])
      · rcases ih h with h | h
        · exact Or.inl h
        · exact Or.inr (List.mem_cons_of_mem _ h)

theorem mem_sortNames (m : Str) (l : List Str) (h : m ∈ sortNames l) : m ∈ l := by
  induction l with
  | nil => simp [sortNames] at h
  | cons x xs ih =>
    unfold sortNames at h
    rcases mem_insertName _ _ _ h with h | h
    · simp [h]
    · exact List.mem_cons_of_mem _ (ih h)

/-- What a successful `os.ReadDir` tells: the name is within the limit of the
system, and every entry has a good name. -/
theorem ReadDir_ok {fs : FS} {p : Str} {files : List Str} (h : fs.ReadDir p = .ok files) :
    p.length ≤ fs.pathMax ∧ Names files := by
  unfold FS.ReadDir at h
  split at h
  · cases h
  · next n hres =>
    split at h
    · cases h
      refine ⟨?_, ?_⟩
      · unfold FS.resolve at hres
        split at hres
        · cases hres
        · split at hres
          · cases hres
          · next hlen => omega
      · intro c hc
        have := mem_sortNames _ _ hc
        unfold FS.entries at this
        exact (List.mem_filter.1 this).2
    · cases h

/-! ## No panic, and the budget suffices -/

theorem Outcome.Returns.ret (e : Option Error) : (Outcome.ret e).Returns := ⟨e, rfl⟩

theorem Outcome.Returns.of_ne {o : Outcome} (h : o.Returns)
    (h1 : ∀ e : Error, o = .ret (some e) → False) (h2 : o = .ret none → False) : False := by
  obtain ⟨e, rfl⟩ := h
  cases e with
  | none => exact h2 rfl
  | some e => exact h1 e rfl

theorem sliceFrom_some {s : Str} {n : Nat} (h : n ≤ s.length) :
    ∃ r, sliceFrom s n = some r := by
  simp [sliceFrom, h]

theorem copyFile_returns {a : Args} {s d : Str} {w w' : World} {o : Outcome}
    (h : copyFile a s d w = (w', o)) : o.Returns := by
  unfold copyFile at h
  split at h
  · cases h; exact .ret _
  · split at h
    · cases h; exact .ret _
    · simp only at h
      split at h
      · cases h; exact .ret _
      · repeat' split at h
        all_goals (cases h; exact .ret _)

theorem backupFile_returns {a : Args} {m : opMode} {p : Str} {w w' : World} {o : Outcome}
    (hlen : a.dst.length ≤ (Split p).1.length) (h : backupFile a m p w = (w', o)) :
    o.Returns := by
  obtain ⟨rel, hrel⟩ := sliceFrom_some hlen
  unfold backupFile at h
  split at h
  · cases h; exact .ret _
  · simp only [hrel] at h
    split at h
    · cases h; exact .ret _
    · repeat' split at h
      all_goals (cases h; exact .ret _)
    · next hne1 hne2 hc =>
      cases h
      exact (copyFile_returns hc).of_ne hne1 hne2 |>.elim

theorem copyBackup_returns {a : Args} {e d : Str} {w w' : World} {o : Outcome}
    (hlen : a.backup = true → a.dst.length ≤ (Split d).1.length)
    (h : copyBackup a e d w = (w', some o)) : o.Returns := by
  unfold copyBackup at h
  split at h
  · next hb =>
    simp only [Bool.and_eq_true] at hb
    split at h
    · cases h; exact .ret _
    · split at h
      · cases h; exact .ret _
      · split at h
        · cases h; exact .ret _
        · split at h
          · cases h; exact .ret _
          · cases h
          · next hne1 hne2 hc =>
            cases h
            exact (backupFile_returns (hlen hb.1) hc).of_ne hne1 hne2 |>.elim
  · cases h

theorem Rooted.slice {a : Args} {path : Str} {R : List Str} (h : Rooted a path R) :
    ∃ rel, sliceFrom path a.src.length = some rel ∧ Tame rel ∧ comps rel = R := by
  obtain ⟨hR, S, hS, hsrc, hp, _⟩ := h
  obtain ⟨rel, he, ht, hc⟩ := absPath_append S R hR
  exact ⟨rel, by rw [hp, hsrc, he]; exact sliceFrom_append _ _, ht, hc⟩

theorem Rooted.child {a : Args} {path : Str} {R : List Str} (h : Rooted a path R)
    {n : Str} (hn : validName n = true) : Rooted a (Join [path, n]) (R ++ [n]) := by
  obtain ⟨hR, S, hS, hsrc, hp, hd⟩ := h
  refine ⟨hR.append (Names.single hn), S, hS, hsrc, ?_, hd⟩
  rw [hp, Join_abs_name _ (hS.append hR) n hn, List.append_assoc]

theorem Rooted.child_length {a : Args} {path : Str} {R : List Str} (h : Rooted a path R)
    {n : Str} (hn : validName n = true) : path.length < (Join [path, n]).length := by
  obtain ⟨hR, S, hS, hsrc, hp, hd⟩ := h
  rw [hp, Join_abs_name _ (hS.append hR) n hn]
  exact absPath_snoc_length _ n hn

theorem copy_returns {a : Args} {p : Str} {R : List Str} {w w' : World} {o : Outcome}
    (hr : Rooted a p R) (hne : R ≠ []) (h : copy a p w = (w', o)) : o.Returns := by
  obtain ⟨rel, hrel, ht, hc⟩ := hr.slice
  have hlen : a.backup = true → a.dst.length ≤ (Split (Join [a.dst, rel])).1.length := by
    intro hb
    obtain ⟨hR, S, hS, hsrc, hp, hd⟩ := hr
    obtain ⟨D, hD, hdst⟩ := hd (Or.inl hb)
    rw [hdst, Join_abs D hD rel ht, hc]
    exact Split_absPath_below D R hR hne
  unfold copy at h
  simp only [hrel] at h
  split at h
  · cases h; exact .ret _
  · split at h
    · next hb => cases h; exact copyBackup_returns hlen hb
    · exact copyFile_returns h

theorem syncEntry_returns {walk : Walk} {pm k : Nat} (hs : WalkSafe walk pm k)
    (hk : pm + 2 ≤ k) {a : Args} {D R : List Str} (hD : Names D) (hR : Names R)
    (hdst : a.dst = absPath D) {s d n : Str} (hd : d = absPath (D ++ R))
    (hn : validName n = true) {w w' : World} (hpm : w.fs.pathMax = pm) {o : Outcome}
    (h : syncEntry walk a s d n w = (w', some o)) : o.Returns := by
  have hlen : a.dst.length ≤ d.length := by rw [hdst, hd]; exact absPath_length_le D R hR
  obtain ⟨rel, hrel⟩ := sliceFrom_some hlen
  have hjoin : Join [d, n] = absPath (D ++ R ++ [n]) := by
    rw [hd, Join_abs_name _ (hD.append hR) n hn]
  have hwalk : ∀ {b : Args} {w1 w2 : World} {o2 : Outcome},
      walk b (Join [d, n]) w1 = (w2, o2) → b.src = Join [d, n] → b.backup = false →
      b.sync = false → w1.fs.pathMax = pm → o2.Returns := by
    intro b w1 w2 o2 hr hsrc hb hsy hp
    refine hs b (Join [d, n]) [] w1 w2 o2 ⟨(by intro c hc; cases hc), D ++ R ++ [n],
      (hD.append hR).append (Names.single hn), (by rw [hsrc, hjoin]), (by simp [hjoin]), ?_⟩
      hp ?_ hr
    · intro hor; rcases hor with h | h
      · rw [hb] at h; cases h
      · rw [hsy] at h; cases h
    · simp only [need, hsy]
      simp only [Bool.false_eq_true, if_false]
      omega
  have hbak : ∀ {w2 : World} {o2 : Outcome},
      backupFile a opMode.modeSync (Join [d, n]) w = (w2, o2) → o2.Returns := by
    intro w2 o2 hr
    refine backupFile_returns ?_ hr
    rw [hdst, hjoin, List.append_assoc]
    exact Split_absPath_below D (R ++ [n]) (hR.append (Names.single hn)) (by simp)
  unfold syncEntry at h
  simp only at h
  split at h
  · cases h
  · split at h
    · split at h
      · cases h
      · cases h; exact .ret _
    · split at h
      · simp only [hrel] at h
        split at h
        · split at h
          · cases h
          · cases h; exact .ret _
        · repeat' split at h
          all_goals first
            | (cases h; done)
            | (cases h; exact .ret _)
        · next hne1 hne2 hr =>
          cases h
          exact ((hwalk hr rfl rfl rfl hpm).of_ne hne1 hne2).elim
      · split at h
        · split at h
          · cases h
          · cases h; exact .ret _
        · cases h
        · next hne1 hne2 hr =>
          cases h
          exact ((hbak hr).of_ne hne1 hne2).elim

theorem syncLoop_returns {walk : Walk} {pm k : Nat} (hw : WalkEff walk)
    (hs : WalkSafe walk pm k) (hk : pm + 2 ≤ k) {a : Args} {D R : List Str} (hD : Names D)
    (hR : Names R) (hdst : a.dst = absPath D) {s d : Str} (hd : d = absPath (D ++ R))
    (files : List Str) (hf : Names files) {w w' : World} (hpm : w.fs.pathMax = pm)
    {o : Outcome} (h : syncLoop walk a s d files w = (w', some o)) : o.Returns := by
  induction files generalizing w with
  | nil => unfold syncLoop at h; cases h
  | cons n rest ih =>
    have hn : validName n = true := hf n (List.mem_cons_self _ _)
    have hrest : Names rest := fun c hc => hf c (List.mem_cons_of_mem _ hc)
    unfold syncLoop at h
    split at h
    · next w1 he =>
      exact ih hrest ((syncEntry_eff hw he).1.trans hpm) h
    · next he =>
      cases h
      exact syncEntry_returns hs hk hD hR hdst hd hn hpm he

theorem syncDir_returns {walk : Walk} {pm k : Nat} (hw : WalkEff walk)
    (hs : WalkSafe walk pm k) {a : Args} (hk : a.sync = true → pm + 2 ≤ k) {p : Str}
    {R : List Str} (hr : Rooted a p R) {w w' : World} (hpm : w.fs.pathMax = pm)
    {o : Outcome} (h : syncDir walk a p w = (w', o)) : o.Returns := by
  obtain ⟨rel, hrel, ht, hc⟩ := hr.slice
  unfold syncDir at h
  split at h
  · cases h; exact .ret _
  · next hsy =>
    have hsy' : a.sync = true := by simpa using hsy
    obtain ⟨hR, S, hS, hsrc, hp, hd⟩ := hr
    obtain ⟨D, hD, hdst⟩ := hd (Or.inr hsy')
    have hdir : Join [a.dst, rel] = absPath (D ++ R) := by
      rw [hdst, Join_abs D hD rel ht, hc]
    simp only [hrel] at h
    split at h
    · cases h; exact .ret _
    · split at h
      · split at h
        · cases h; exact .ret _
        · cases h; exact .ret _
      · next files hrd =>
        split at h
        · cases h; exact .ret _
        · next hl =>
          cases h
          exact syncLoop_returns hw hs (hk hsy') hD hR hdst hdir files (ReadDir_ok hrd).2
            (w := w.send _) hpm hl

theorem need_child {a : Args} {dir child : Str} {pm k : Nat} (hlen : dir.length ≤ pm)
    (hlt : dir.length < child.length) (hk : need a dir pm ≤ k + 1) : need a child pm ≤ k := by
  unfold need at hk ⊢
  omega

theorem need_sync {a : Args} {dir : Str} {pm k : Nat}
    (hk : need a dir pm ≤ k + 1) (hs : a.sync = true) : pm + 2 ≤ k := by
  unfold need at hk
  simp only [hs, if_true] at hk
  omega

/-- A clean absolute path name is never classified hidden: its first byte is
the separator. -/
theorem isHidden_absPath (cs : List Str) : isHidden (absPath cs) = some (false, none) := by
  unfold absPath isHidden
  simp only
  rw [if_neg (by decide)]

theorem dirWalkEntry_returns {walk : Walk} {pm k : Nat} (hw : WalkEff walk)
    (hs : WalkSafe walk pm k) {a : Args} {dir : Str} {R : List Str} (hr : Rooted a dir R)
    (hlen : dir.length ≤ pm) (hk : need a dir pm ≤ k + 1) {n : Str}
    (hn : validName n = true) {w w' : World} (hpm : w.fs.pathMax = pm) {o : Outcome}
    (h : dirWalkEntry walk a dir n w = (w', some o)) : o.Returns := by
  have hchild := hr.child hn
  have hneed : need a (Join [dir, n]) pm ≤ k := need_child hlen (hr.child_length hn) hk
  have hb : isHidden (Join [dir, n]) = some (false, none) := by
    obtain ⟨_, S, _, _, hp, _⟩ := hchild
    rw [hp]; exact isHidden_absPath _
  unfold dirWalkEntry at h
  simp only [hb] at h
  split at h
  · split at h
    · cases h
    · cases h; exact .ret _
  · split at h
    · cases h
    · split at h
      · split at h
        · split at h
          · cases h
          · cases h; exact .ret _
        · next hsd =>
          have hpm1 := (syncDir_eff hw hsd).1.trans hpm
          split at h
          · split at h
            · cases h
            · cases h; exact .ret _
          · cases h
          · next hne1 hne2 hwk =>
            cases h
            exact ((hs _ _ _ _ _ _ hchild hpm1 hneed hwk).of_ne hne1 hne2).elim
        · next hne1 hne2 hsd =>
          cases h
          exact ((syncDir_returns hw hs (need_sync hk) hchild hpm hsd).of_ne
            hne1 hne2).elim
      · split at h
        · split at h
          · cases h
          · cases h; exact .ret _
        · cases h
        · next hne1 hne2 hcp =>
          cases h
          exact ((copy_returns hchild (by simp) hcp).of_ne hne1 hne2).elim

theorem dirWalkLoop_returns {walk : Walk} {pm k : Nat} (hw : WalkEff walk)
    (hs : WalkSafe walk pm k) {a : Args} {dir : Str} {R : List Str} (hr : Rooted a dir R)
    (hlen : dir.length ≤ pm) (hk : need a dir pm ≤ k + 1) (files : List Str)
    (hf : Names files) {w w' : World} (hpm : w.fs.pathMax = pm) {o : Outcome}
    (h : dirWalkLoop walk a dir files w = (w', some o)) : o.Returns := by
  induction files generalizing w with
  | nil => unfold dirWalkLoop at h; cases h
  | cons n rest ih =>
    have hn : validName n = true := hf n (List.mem_cons_self _ _)
    have hrest : Names rest := fun c hc => hf c (List.mem_cons_of_mem _ hc)
    unfold dirWalkLoop at h
    split at h
    · next w1 he => exact ih hrest ((dirWalkEntry_eff hw he).1.trans hpm) h
    · next he =>
      cases h
      exact dirWalkEntry_returns hw hs hr hlen hk hn hpm he

/-- With a budget that covers its need, `dirWalk` returns. -/
theorem dirWalk_safe (pm : Nat) (n : Nat) : WalkSafe (dirWalk n) pm n := by
  induction n with
  | zero =>
    intro a p R w w' o _ _ hk _
    unfold need at hk
    omega
  | succ n ih =>
    intro a p R w w' o hr hpm hk h
    unfold dirWalk at h
    split at h
    · split at h
      · cases h; exact .ret _
      · cases h; exact .ret _
    · next files hrd =>
      have hok := ReadDir_ok hrd
      split at h
      · cases h; exact .ret _
      · next hl =>
        cases h
        exact dirWalkLoop_returns (dirWalk_eff n) ih hr (hpm ▸ hok.1) hk files hok.2 hpm hl

/-! ## Deletion-sync: what is removed -/

/-- What `fileExists` answers: false exactly when `os.Stat`, which follows
symbolic links, fails with `ENOENT` or `ENOTDIR`. -/
theorem fileExists_false_iff (fs : FS) (p : Str) :
    fileExists fs p = false ↔
      (fs.Stat p = .error (.sys .stat p .ENOENT) ∨ fs.Stat p = .error (.sys .stat p .ENOTDIR)) := by
  unfold fileExists FS.Stat
  cases hr : fs.resolve true p with
  | ok r => simp
  | error e =>
    obtain ⟨c, en⟩ := e
    cases en <;> simp

/-- What `Inspected` says, spelled out: the loop ran through the entries before
`name` without returning, and in the world it had reached then `os.Stat` of the
path of `name` in the source directory failed with `ENOENT` or `ENOTDIR`. -/
theorem Inspected.unfold {walk : Walk} {a : Args} {s d : Str} {files : List Str} {w : World}
    {name : Str} (h : Inspected walk a s d files w name) :
    ∃ pre rest w1, files = pre ++ name :: rest ∧ syncLoop walk a s d pre w = (w1, none) ∧
      (w1.fs.Stat (Join [s, name]) = .error (.sys .stat (Join [s, name]) .ENOENT)
        ∨ w1.fs.Stat (Join [s, name]) = .error (.sys .stat (Join [s, name]) .ENOTDIR)) := by
  induction h with
  | here hx => exact ⟨[], _, _, rfl, rfl, (fileExists_false_iff _ _).1 hx⟩
  | later he _ ih =>
    obtain ⟨pre, rest, w1, hf, hl, hs⟩ := ih
    refine ⟨_ :: pre, rest, w1, by rw [hf]; rfl, ?_, hs⟩
    unfold syncLoop
    simp only [he]
    exact hl

theorem syncEntry_quiet {walk : Walk} {a : Args} (hi : a.ignore = true) (s d n : Str)
    (w w' : World) (e : Error) : syncEntry walk a s d n w ≠ (w', some (.ret (some e))) := by
  intro h
  unfold syncEntry at h
  simp only [hi, if_true] at h
  repeat' split at h
  all_goals first
    | (cases h; done)
    | (cases h; rename_i hne _ _; exact hne _ rfl)

theorem syncLoop_quiet {walk : Walk} {a : Args} (hi : a.ignore = true) (s d : Str)
    (files : List Str) (w w' : World) (e : Error) :
    syncLoop walk a s d files w ≠ (w', some (.ret (some e))) := by
  induction files generalizing w with
  | nil => intro h; unfold syncLoop at h; cases h
  | cons n rest ih =>
    intro h
    unfold syncLoop at h
    split at h
    · exact ih _ h
    · next he => cases h; exact syncEntry_quiet hi _ _ _ _ _ _ he

theorem syncDir_quiet {walk : Walk} {a : Args} (hi : a.ignore = true) (s : Str)
    (w w' : World) (e : Error) : syncDir walk a s w ≠ (w', .ret (some e)) := by
  intro h
  unfold syncDir at h
  simp only [hi, if_true] at h
  repeat' split at h
  all_goals first
    | (cases h; done)
    | (cases h; exact syncLoop_quiet hi _ _ _ _ _ _ (by assumption))

theorem dirWalkEntry_quiet {walk : Walk} {a : Args} (hi : a.ignore = true) (dir n : Str)
    (w w' : World) (e : Error) :
    dirWalkEntry walk a dir n w ≠ (w', some (.ret (some e))) := by
  intro h
  unfold dirWalkEntry at h
  simp only [hi, if_true] at h
  repeat' split at h
  all_goals first
    | (cases h; done)
    | (cases h; rename_i hne _ _; exact hne _ rfl)

theorem dirWalkLoop_quiet {walk : Walk} {a : Args} (hi : a.ignore = true) (dir : Str)
    (files : List Str) (w w' : World) (e : Error) :
    dirWalkLoop walk a dir files w ≠ (w', some (.ret (some e))) := by
  induction files generalizing w with
  | nil => intro h; unfold dirWalkLoop at h; cases h
  | cons n rest ih =>
    intro h
    unfold dirWalkLoop at h
    split at h
    · exact ih _ h
    · next he => cases h; exact dirWalkEntry_quiet hi _ _ _ _ _ he

theorem dirWalk_quiet (n : Nat) {a : Args} (hi : a.ignore = true) (p : Str)
    (w w' : World) (e : Error) : dirWalk n a p w ≠ (w', .ret (some e)) := by
  intro h
  cases n with
  | zero => unfold dirWalk at h; cases h
  | succ n =>
    unfold dirWalk at h
    simp only [hi, if_true] at h
    repeat' split at h
    all_goals first
      | (cases h; done)
      | (cases h; exact dirWalkLoop_quiet hi _ _ _ _ _ (by assumption))

/-! ## A best-effort run returns -/

theorem splitSep_plain_mem (p : Str) : ∀ c ∈ splitSep p, Separator ∉ c := by
  induction p with
  | nil => intro c hc; simp [splitSep] at hc; subst hc; simp
  | cons x xs ih =>
    intro c hc
    unfold splitSep at hc
    split at hc
    · rcases List.mem_cons.1 hc with h | h
      · subst h; simp
      · exact ih c h
    · next hx =>
      split at hc
      · simp at hc; subst hc
        simpa using fun h => hx h.symm
      · next hd tl heq =>
        rcases List.mem_cons.1 hc with h | h
        · subst h
          have := ih hd (by rw [heq]; exact List.mem_cons_self _ _)
          intro hm
          rcases List.mem_cons.1 hm with h1 | h1
          · exact hx h1.symm
          · exact this h1
        · exact ih c (by rw [heq]; exact List.mem_cons_of_mem _ h)

theorem cleanStep_names (st : List Str) (c : Str) (hst : Names st) (hc : Separator ∉ c) :
    Names (cleanStep true st c) := by
  unfold cleanStep
  split
  · exact hst
  · next h1 =>
    split
    · split
      · simp only [if_true]; intro x hx; cases hx
      · next top rest =>
        have htop : ¬ top = ['.', '.'] := by
          intro h
          have := (validName_iff top).1 (hst top (List.mem_cons_self _ _))
          exact this.2.2.1 h
        simp only [htop, if_false]
        exact fun x hx => hst x (List.mem_cons_of_mem _ hx)
    · next h2 =>
      intro x hx
      rcases List.mem_cons.1 hx with h | h
      · subst h
        rw [validName_iff]
        simp only [not_or] at h1
        exact ⟨h1.1, h1.2, h2, hc⟩
      · exact hst x h

theorem foldl_cleanStep_names (cs : List Str) (st : List Str) (hst : Names st)
    (hcs : ∀ c ∈ cs, Separator ∉ c) : Names (cs.foldl (cleanStep true) st) := by
  induction cs generalizing st with
  | nil => exact hst
  | cons c cs ih =>
    rw [List.foldl_cons]
    exact ih _ (cleanStep_names st c hst (hcs c (List.mem_cons_self _ _)))
      (fun x hx => hcs x (List.mem_cons_of_mem _ hx))

/-- A clean absolute path name is the root followed by good names. -/
theorem IsCleanAbs.toAbsPath {p : Str} (h : IsCleanAbs p) : ∃ S, Names S ∧ p = absPath S := by
  refine ⟨((splitSep p).foldl (cleanStep true) []).reverse, ?_, ?_⟩
  · intro c hc
    exact foldl_cleanStep_names _ [] (by intro x hx; cases hx) (splitSep_plain_mem p) c
      (List.mem_reverse.1 hc)
  · have := h.2
    unfold Clean at this
    simp only [h.1, if_true, decide_True] at this
    exact this.symm

theorem need_budget (a : Args) (p : Str) (pm : Nat) : need a p pm ≤ 2 * pm + 6 := by
  unfold need
  split <;> omega

/-- Under `ignore`, on clean absolute roots and a source root that is a
directory, a run returns `nil`. -/
theorem run_ignore {a : Args} {w : World} {info : Node} (hi : a.ignore = true)
    (hsrc : IsCleanAbs a.src) (hdst : IsCleanAbs a.dst) (hst : w.fs.Stat a.src = .ok info)
    (hdir : info.IsDir = true) : ∃ w', run a w = (w', .ret none) := by
  obtain ⟨S, hS, hs⟩ := hsrc.toAbsPath
  obtain ⟨D, hD, hd⟩ := hdst.toAbsPath
  have hr : Rooted a a.src [] :=
    ⟨(by intro c hc; cases hc), S, hS, hs, (by simpa using hs), fun _ => ⟨D, hD, hd⟩⟩
  have hsafe := dirWalk_safe w.fs.pathMax (budget w.fs)
  have hk : need a a.src w.fs.pathMax ≤ budget w.fs := need_budget _ _ _
  unfold run Xcpdir
  simp only [hst, hdir]
  rcases hsd : syncDir (dirWalk (budget w.fs)) a a.src w with ⟨w1, o1⟩
  have h1 := syncDir_returns (dirWalk_eff _) hsafe (fun _ => by unfold budget; omega) hr rfl hsd
  obtain ⟨e1, rfl⟩ := h1
  cases e1 with
  | some e => exact (syncDir_quiet hi _ _ _ _ hsd).elim
  | none =>
    simp only [Bool.not_true, Bool.false_eq_true, if_false]
    rcases hdw : dirWalk (budget w.fs) a a.src w1 with ⟨w2, o2⟩
    have hpm := (syncDir_eff (dirWalk_eff _) hsd).1
    have h2 := hsafe a a.src [] w1 w2 o2 hr hpm hk hdw
    obtain ⟨e2, rfl⟩ := h2
    cases e2 with
    | some e => exact (dirWalk_quiet _ hi _ _ _ _ hdw).elim
    | none => exact ⟨w2, rfl⟩

/-! ## The error policy -/

theorem dirWalkLoop_append (walk : Walk) (a : Args) (dir : Str) (pre rest : List Str)
    (w w1 : World) (h : dirWalkLoop walk a dir pre w = (w1, none)) :
    dirWalkLoop walk a dir (pre ++ rest) w = dirWalkLoop walk a dir rest w1 := by
  induction pre generalizing w with
  | nil => unfold dirWalkLoop at h; cases h; rfl
  | cons n pre ih =>
    unfold dirWalkLoop at h
    show dirWalkLoop walk a dir (n :: (pre ++ rest)) w = _
    rw [dirWalkLoop]
    split at h
    · exact ih _ h
    · cases h

theorem syncLoop_append (walk : Walk) (a : Args) (s d : Str) (pre rest : List Str)
    (w w1 : World) (h : syncLoop walk a s d pre w = (w1, none)) :
    syncLoop walk a s d (pre ++ rest) w = syncLoop walk a s d rest w1 := by
  induction pre generalizing w with
  | nil => unfold syncLoop at h; cases h; rfl
  | cons n pre ih =>
    unfold syncLoop at h
    show syncLoop walk a s d (n :: (pre ++ rest)) w = _
    rw [syncLoop]
    split at h
    · exact ih _ h
    · cases h

/-- The loop of `dirWalk` stops at the first entry whose round returns. -/
theorem dirWalkLoop_stops (walk : Walk) (a : Args) (dir : Str) (pre : List Str) (name : Str)
    (rest : List Str) (w w1 w2 : World) (o : Outcome)
    (hpre : dirWalkLoop walk a dir pre w = (w1, none))
    (he : dirWalkEntry walk a dir name w1 = (w2, some o)) :
    dirWalkLoop walk a dir (pre ++ name :: rest) w = (w2, some o) := by
  rw [dirWalkLoop_append walk a dir pre _ w w1 hpre, dirWalkLoop]
  simp only [he]

/-- The loop of `syncDir` stops at the first entry whose round returns. -/
theorem syncLoop_stops (walk : Walk) (a : Args) (s d : Str) (pre : List Str) (name : Str)
    (rest : List Str) (w w1 w2 : World) (o : Outcome)
    (hpre : syncLoop walk a s d pre w = (w1, none))
    (he : syncEntry walk a s d name w1 = (w2, some o)) :
    syncLoop walk a s d (pre ++ name :: rest) w = (w2, some o) := by
  rw [syncLoop_append walk a s d pre _ w w1 hpre, syncLoop]
  simp only [he]

/-- What a round of the loop of `dirWalk` does when a step fails. -/
theorem dirWalkEntry_policy (walk : Walk) (a : Args) (dir name : Str) (w : World) :
    (∀ e, w.fs.Stat (Join [dir, name]) = .error e →
      dirWalkEntry walk a dir name w = errorPolicy a 353 w e)
    ∧ (∀ info hid e, w.fs.Stat (Join [dir, name]) = .ok info →
        isHidden (Join [dir, name]) = some (hid, some e) →
        dirWalkEntry walk a dir name w = errorPolicy a 362 w e)
    ∧ (∀ info hid, w.fs.Stat (Join [dir, name]) = .ok info →
        isHidden (Join [dir, name]) = some (hid, none) → (!a.hidden && hid) = false →
        (info.IsDir = true →
          (∀ w1 e, syncDir walk a (Join [dir, name]) w = (w1, .ret (some e)) →
            dirWalkEntry walk a dir name w = errorPolicy a 375 w1 e)
          ∧ (∀ w1 w2 e, syncDir walk a (Join [dir, name]) w = (w1, .ret none) →
              walk a (Join [dir, name]) w1 = (w2, .ret (some e)) →
              dirWalkEntry walk a dir name w = errorPolicy a 382 w2 e))
        ∧ (info.IsDir = false →
          ∀ w1 e, copy a (Join [dir, name]) w = (w1, .ret (some e)) →
            dirWalkEntry walk a dir name w = errorPolicy a 396 w1 e)) := by
  refine ⟨?_, ?_, ?_⟩
  · intro e h
    simp only [dirWalkEntry, h, errorPolicy, newError, World.sendError]
  · intro info hid e hst hh
    simp only [dirWalkEntry, hst, hh, errorPolicy, newError, World.sendError]
  · intro info hid hst hh hskip
    refine ⟨fun hd => ⟨?_, ?_⟩, fun hd => ?_⟩
    · intro w1 e hs
      simp only [dirWalkEntry, hst, hh, hskip, hd, hs, errorPolicy, newError, World.sendError, if_true,
        Bool.false_eq_true, if_false]
    · intro w1 w2 e hs hw
      simp only [dirWalkEntry, hst, hh, hskip, hd, hs, hw, errorPolicy, newError, World.sendError, if_true,
        Bool.false_eq_true, if_false]
    · intro w1 e hc
      simp only [dirWalkEntry, hst, hh, hskip, hd, hc, errorPolicy, newError, World.sendError, if_true,
        Bool.false_eq_true, if_false]

/-- What a round of the loop of `syncDir` does when a step fails. -/
theorem syncEntry_policy (walk : Walk) (a : Args) (srcDir dstDir name : Str) (w : World)
    (habs : fileExists w.fs (Join [srcDir, name]) = false) :
    (∀ e, w.fs.Stat dstDir = .error e →
      syncEntry walk a srcDir dstDir name w = errorPolicy a 279 w e)
    ∧ (∀ info rel, w.fs.Stat dstDir = .ok info → info.IsDir = true →
        sliceFrom dstDir a.dst.length = some rel →
        (∀ w2 e,
          walk { a with
                 backup := false, sync := false, link := false, src := Join [dstDir, name]
                 dst := Join [a.trash, rel, backupBaseName name info.ModTime] }
              (Join [dstDir, name])
              (w.send [opMode.modeBackup.string, Join [dstDir, name],
                Join [a.trash, rel, backupBaseName name info.ModTime]])
            = (w2, .ret (some e)) →
          syncEntry walk a srcDir dstDir name w = errorPolicy a 299 w2 e)
        ∧ (∀ w2 w4 e, a.dryrun = false →
          walk { a with
                 backup := false, sync := false, link := false, src := Join [dstDir, name]
                 dst := Join [a.trash, rel, backupBaseName name info.ModTime] }
              (Join [dstDir, name])
              (w.send [opMode.modeBackup.string, Join [dstDir, name],
                Join [a.trash, rel, backupBaseName name info.ModTime]])
            = (w2, .ret none) →
          (w2.send ["remove".toList, Join [dstDir, name]]).RemoveAll (Join [dstDir, name])
            = (w4, some e) →
          syncEntry walk a srcDir dstDir name w = errorPolicy a 309 w4 e))
    ∧ (∀ info w1 e, w.fs.Stat dstDir = .ok info → info.IsDir = false →
        backupFile a opMode.modeSync (Join [dstDir, name]) w = (w1, .ret (some e)) →
        syncEntry walk a srcDir dstDir name w = errorPolicy a 320 w1 e) := by
  refine ⟨?_, ?_, ?_⟩
  · intro e h
    simp only [syncEntry, habs, h, errorPolicy, newError, World.sendError, Bool.false_eq_true, if_false]
  · intro info rel hst hd hrel
    refine ⟨?_, ?_⟩
    · intro w2 e hw
      simp only [syncEntry, habs, hst, hd, hrel, hw, newError, World.sendError, Bool.false_eq_true, if_false,
        if_true, errorPolicy]
    · intro w2 w4 e hdry hw hrm
      simp only [hdry] at hw
      simp only [syncEntry, habs, hst, hd, hrel, hw, newError, World.sendError, Bool.false_eq_true, if_false,
        if_true, hdry, Bool.not_false, hrm, errorPolicy]
  · intro info w1 e hst hd hb
    simp only [syncEntry, habs, hst, hd, hb, errorPolicy, newError, World.sendError, Bool.false_eq_true,
      if_false]

/-- The error policy of `dirWalk` and `syncDir`, where the run does not panic.

With `ignore` (best effort) on, neither method ever returns an error, whatever
the budget, the configuration and the file system; and a run whose source and
destination roots are clean absolute path names and whose source root is a
directory returns `nil` (it does not panic and stays within the budget).

In both modes: when listing fails, the method sends the error and returns
`nil` with `ignore`, and returns the error without it; when a step of a round
of either loop fails (stat, hidden check, `syncDir`, the recursive `dirWalk`,
`copy`, the backup walk, `RemoveAll`, `backupFile`), the round follows
`errorPolicy`: with `ignore` the error is sent and the loop goes on with the
next entry, without it the round returns the wrapped error.  A loop stops at
the first round that returns, the entries after it are not visited, and the
method returns what that round returned; `Xcpdir` returns the error of
`syncDir` or of `dirWalk`. -/
theorem error_policy_of_loops (n : Nat) (a : Args) (p : Str) (w : World) :
    (a.ignore = true →
      (∀ w' e, dirWalk n a p w ≠ (w', .ret (some e)))
      ∧ (∀ w' e, syncDir (dirWalk n) a p w ≠ (w', .ret (some e)))
      ∧ (∀ info, IsCleanAbs a.src → IsCleanAbs a.dst → w.fs.Stat a.src = .ok info →
          info.IsDir = true → ∃ w', run a w = (w', .ret none)))
    ∧ (∀ e, w.fs.ReadDir p = .error e →
        dirWalk (n + 1) a p w =
          if a.ignore = true then ({ w with out := w.out ++ [Msg.error e] }, .ret none)
          else (w, .ret (some (.wrapped 341 e))))
    ∧ (∀ rel e, a.sync = true → sliceFrom p a.src.length = some rel →
        fileExists w.fs (Join [a.dst, rel]) = true →
        w.fs.ReadDir (Join [a.dst, rel]) = .error e →
        syncDir (dirWalk n) a p w =
          if a.ignore = true then ({ w with out := w.out ++ [Msg.error e] }, .ret none)
          else (w, .ret (some (.wrapped 264 e))))
    ∧ (∀ name,
        (∀ e, w.fs.Stat (Join [p, name]) = .error e →
          dirWalkEntry (dirWalk n) a p name w = errorPolicy a 353 w e)
        ∧ (∀ info hid e, w.fs.Stat (Join [p, name]) = .ok info →
            isHidden (Join [p, name]) = some (hid, some e) →
            dirWalkEntry (dirWalk n) a p name w = errorPolicy a 362 w e)
        ∧ (∀ info hid, w.fs.Stat (Join [p, name]) = .ok info →
            isHidden (Join [p, name]) = some (hid, none) → (!a.hidden && hid) = false →
            (info.IsDir = true →
              (∀ w1 e, syncDir (dirWalk n) a (Join [p, name]) w = (w1, .ret (some e)) →
                dirWalkEntry (dirWalk n) a p name w = errorPolicy a 375 w1 e)
              ∧ (∀ w1 w2 e, syncDir (dirWalk n) a (Join [p, name]) w = (w1, .ret none) →
                  dirWalk n a (Join [p, name]) w1 = (w2, .ret (some e)) →
                  dirWalkEntry (dirWalk n) a p name w = errorPolicy a 382 w2 e))
            ∧ (info.IsDir = false →
              ∀ w1 e, copy a (Join [p, name]) w = (w1, .ret (some e)) →
                dirWalkEntry (dirWalk n) a p name w = errorPolicy a 396 w1 e)))
    ∧ (∀ dstDir name, fileExists w.fs (Join [p, name]) = false →
        (∀ e, w.fs.Stat dstDir = .error e →
          syncEntry (dirWalk n) a p dstDir name w = errorPolicy a 279 w e)
        ∧ (∀ info rel, w.fs.Stat dstDir = .ok info → info.IsDir = true →
            sliceFrom dstDir a.dst.length = some rel →
            (∀ w2 e,
              dirWalk n
                  { a with
                    backup := false, sync := false, link := false, src := Join [dstDir, name]
                    dst := Join [a.trash, rel, backupBaseName name info.ModTime] }
                  (Join [dstDir, name])
                  (w.send [opMode.modeBackup.string, Join [dstDir, name],
                    Join [a.trash, rel, backupBaseName name info.ModTime]])
                = (w2, .ret (some e)) →
              syncEntry (dirWalk n) a p dstDir name w = errorPolicy a 299 w2 e)
            ∧ (∀ w2 w4 e, a.dryrun = false →
              dirWalk n
                  { a with
                    backup := false, sync := false, link := false, src := Join [dstDir, name]
                    dst := Join [a.trash, rel, backupBaseName name info.ModTime] }
                  (Join [dstDir, name])
                  (w.send [opMode.modeBackup.string, Join [dstDir, name],
                    Join [a.trash, rel, backupBaseName name info.ModTime]])
                = (w2, .ret none) →
              (w2.send ["remove".toList, Join [dstDir, name]]).RemoveAll (Join [dstDir, name])
                = (w4, some e) →
              syncEntry (dirWalk n) a p dstDir name w = errorPolicy a 309 w4 e))
        ∧ (∀ info w1 e, w.fs.Stat dstDir = .ok info → info.IsDir = false →
            backupFile a opMode.modeSync (Join [dstDir, name]) w = (w1, .ret (some e)) →
            syncEntry (dirWalk n) a p dstDir name w = errorPolicy a 320 w1 e))
    ∧ (∀ pre name rest w1 w2 o,
        (dirWalkLoop (dirWalk n) a p pre w = (w1, none) →
          dirWalkEntry (dirWalk n) a p name w1 = (w2, some o) →
          dirWalkLoop (dirWalk n) a p (pre ++ name :: rest) w = (w2, some o)
          ∧ (w.fs.ReadDir p = .ok (pre ++ name :: rest) → dirWalk (n + 1) a p w = (w2, o)))
        ∧ (∀ dstDir, syncLoop (dirWalk n) a p dstDir pre w = (w1, none) →
          syncEntry (dirWalk n) a p dstDir name w1 = (w2, some o) →
          syncLoop (dirWalk n) a p dstDir (pre ++ name :: rest) w = (w2, some o)))
    ∧ (∀ info, w.fs.Stat a.src = .ok info → info.IsDir = true →
        (∀ w1 e, syncDir (dirWalk n) a a.src w = (w1, .ret (some e)) →
          Xcpdir n a w = (w1, .ret (some (.wrapped 418 e))))
        ∧ (∀ w1, syncDir (dirWalk n) a a.src w = (w1, .ret none) →
          Xcpdir n a w = dirWalk n a a.src w1)) := by
  refine ⟨fun hi => ⟨fun w' e => dirWalk_quiet n hi p w w' e,
      fun w' e => syncDir_quiet hi p w w' e,
      fun info hs hd hst hdir => run_ignore hi hs hd hst hdir⟩, ?_, ?_,
    fun name => dirWalkEntry_policy _ a p name w,
    fun dstDir name habs => syncEntry_policy _ a p dstDir name w habs, ?_, ?_⟩
  · intro e h
    simp only [dirWalk, h, newError, World.sendError]
  · intro rel e hs hrel hex hrd
    simp only [syncDir, hs, hrel, hex, hrd, newError, World.sendError, Bool.not_true, Bool.false_eq_true,
      if_false]
  · intro pre name rest w1 w2 o
    refine ⟨fun hpre he => ?_, fun dstDir hpre he =>
      syncLoop_stops _ a p dstDir pre name rest w w1 w2 o hpre he⟩
    have hl := dirWalkLoop_stops _ a p pre name rest w w1 w2 o hpre he
    refine ⟨hl, fun hrd => ?_⟩
    simp only [dirWalk, hrd, hl]
  · intro info hst hdir
    refine ⟨fun w1 e hs => ?_, fun w1 hs => ?_⟩
    · simp only [Xcpdir, hst, hdir, hs, newError, World.sendError, Bool.not_true, Bool.false_eq_true, if_false]
    · simp only [Xcpdir, hst, hdir, hs, Bool.not_true, Bool.false_eq_true, if_false]

/-- A best-effort run with sync over `Sample.staleFile`, with clean roots,
returns `nil`. -/
theorem error_policy_of_loops_example :
    ∃ w', run { plain with ignore := true, sync := true } staleFile = (w', .ret none) :=
  (error_policy_of_loops 0 { plain with ignore := true, sync := true } [] staleFile).1 rfl |>.2.2
    (.dir t0) ⟨by decide, by decide⟩ ⟨by decide, by decide⟩ (by decide) rfl

/-! ## Evaluations on the sample trees -/

/-- C1, as the code behaves.  `syncDir` on the source root of `Sample.staleFile`
(sync enabled; `/d/b.txt` is a regular file without a counterpart in `/s`).
Line 273 stats `dstDir` instead of the child, so the child is taken for a
directory.  Without `ignore` the call returns the error of reading `/d/b.txt` as
a directory and leaves `b.txt` in place; with `ignore` it issues
`os.RemoveAll("/d/b.txt")` as its only changing call, so the file is gone and
nothing was copied into the trash. -/
theorem syncDir_stale_file_not_backed_up :
    (let r := syncDir (dirWalk 8) { plain with sync := true } "/s".toList staleFile
     r.2 = .ret (some (.wrapped 299 (.wrapped 341
        (.sys .open "/d/b.txt".toList .ENOTDIR))))
      ∧ r.1.fs = staleFile.fs ∧ r.1.calls = [])
    ∧ (let r := syncDir (dirWalk 8) { plain with sync := true, ignore := true }
          "/s".toList staleFile
       r.2 = .ret none
        ∧ r.1.calls = [Call.removeAll "/d/b.txt".toList]
        ∧ r.1.fs.find "/d/b.txt".toList = none
        ∧ r.1.fs.entries "/t".toList = []) := by
  decide!

/-- C2, as the code behaves.  `syncDir` with `sync` and `ignore` on the source
root of `Sample.staleDir`: the destination-only directory `/d/x` holds the file
`f`, and the trash root is a regular file, so the backup copy of `f` fails (the
`os.MkdirAll` below the trash root is refused; its error names `/t`).  With `ignore` the inner
`dirWalk` reports that error and returns `nil`, so line 303 still issues
`os.RemoveAll("/d/x")`: afterwards `/d/x` and `/d/x/f` are gone and no copy
exists anywhere.  (The other half of the claim holds: when the copy made by
`backupFile` fails, `backupFile` returns that error at once, in the world the
copy left, so its `os.Remove` is not reached.) -/
theorem syncDir_removes_subtree_after_failed_backup :
    (∀ (a : Args) (mode : opMode) (path rel : Str) (info : Node) (w w2 : World) (e : Error),
      w.fs.Stat path = .ok info → sliceFrom (Split path).1 a.dst.length = some rel →
      copyFile a path (Join [a.trash, rel, backupBaseName (Split path).2 info.ModTime])
          (w.send [mode.string, path,
            Join [a.trash, rel, backupBaseName (Split path).2 info.ModTime]])
        = (w2, .ret (some e)) →
      backupFile a mode path w = (w2, .ret (some (.wrapped 138 e))))
    ∧ (syncDir (dirWalk 8) { plain with sync := true, ignore := true } "/s".toList staleDir).2
        = .ret none
    ∧ (syncDir (dirWalk 8) { plain with sync := true, ignore := true } "/s".toList staleDir).1.out
        = [Msg.words ["sync".toList, "/s".toList, "/d".toList],
           Msg.words ["backup".toList, "/d/x".toList, "/t/x_2024-03-07_090501".toList],
           Msg.words ["target".toList, "/d/x/f".toList, "/t/x_2024-03-07_090501/f".toList],
           Msg.words ["mkdir".toList, "/t/x_2024-03-07_090501/".toList],
           Msg.error (.wrapped 81 (.sys .mkdir "/t".toList .ENOTDIR)),
           Msg.words ["remove".toList, "/d/x".toList]]
    ∧ (syncDir (dirWalk 8) { plain with sync := true, ignore := true } "/s".toList staleDir).1.calls
        = [Call.mkdirAll "/t/x_2024-03-07_090501/".toList, Call.removeAll "/d/x".toList]
    ∧ (syncDir (dirWalk 8) { plain with sync := true, ignore := true } "/s".toList staleDir).1.fs.nodes
        = [("/".toList, .dir t0), ("/s".toList, .dir t0), ("/d".toList, .dir t0),
           ("/t".toList, .file [] t0)] := by
  refine ⟨fun a mode path rel info w w2 e hst hrel hc => ?_, ?_⟩
  · simp only [backupFile, hst, hrel, hc, newError]
  · decide!

/-- C7, as the code behaves.  `dirWalk` of `/s` in `Sample.dotFile` with
`hidden` (include hidden entries) off: the entry `.secret` has a base name that
begins with a dot, but `isHidden` is handed the joined path `/s/.secret` and
looks at its first byte, `/`, so it answers `false`; the file is reported and
copied to `/d/.secret`.  In general, below a clean absolute directory no entry
is ever classified hidden, whatever its name. -/
theorem dirWalk_copies_dot_file :
    (∀ (D : List Str) (name : Str), Names D → validName name = true →
      isHidden (Join [absPath D, name]) = some (false, none))
    ∧ (Split "/s/.secret".toList).2 = ".secret".toList
    ∧ plain.hidden = false
    ∧ isHidden (Join ["/s".toList, ".secret".toList]) = some (false, none)
    ∧ (dirWalk 8 plain "/s".toList dotFile).2 = .ret none
    ∧ (dirWalk 8 plain "/s".toList dotFile).1.out
        = [Msg.words ["target".toList, "/s/.secret".toList, "/d/.secret".toList],
           Msg.words ["copy".toList, "/s/.secret".toList, "/d/.secret".toList]]
    ∧ (dirWalk 8 plain "/s".toList dotFile).1.fs.find "/d/.secret".toList
        = some (.file [1] t0) := by
  refine ⟨fun D name hD hn => ?_, ?_⟩
  · rw [Join_abs_name D hD name hn]
    exact isHidden_absPath _
  · decide!

/-- Counterexample to C3 as stated.  With `modified` (compare size and time) on
but `backup` off, `copy` of `/s/a.txt` in `Sample.staleFile`, where `/d/a.txt`
has the same size and the same modification time, sends no `skip`: it sends
`copy` and writes the destination. -/
theorem copy_unchanged_file_without_backup :
    staleFile.fs.Stat "/s/a.txt".toList = .ok (.file [1] t0)
    ∧ staleFile.fs.Stat "/d/a.txt".toList = .ok (.file [1] t0)
    ∧ copy { plain with modified := true } "/s/a.txt".toList staleFile
      = ({ staleFile with
            fs := staleFile.fs.put "/d/a.txt".toList (.file [1] t0)
            out := [Msg.words ["target".toList, "/s/a.txt".toList, "/d/a.txt".toList],
                    Msg.words ["copy".toList, "/s/a.txt".toList, "/d/a.txt".toList]]
            calls := [Call.create "/d/a.txt".toList, Call.write "/d/a.txt".toList,
                      Call.chtimes "/d/a.txt".toList t0] },
         .ret none) := by
  decide!

/-- Counterexample to C10 as stated.  When the source root does not exist,
`Xcpdir` returns the error of `os.Stat` (line 411), which is not the
"is not a directory" error of line 414. -/
theorem Xcpdir_missing_root_stat_error :
    Xcpdir 8 { plain with src := "/nope".toList } dotFile
      = (dotFile, .ret (some (.wrapped 411 (.sys .stat "/nope".toList .ENOENT))))
    ∧ Xcpdir 8 { plain with src := "/nope".toList } dotFile
      ≠ (dotFile, .ret (some (.wrapped 414 (.notDirectory "/nope".toList)))) := by
  decide!

/-- A source root that is not a clean path name.  With the source root written
`/s/./` the slice `srcDir[len(a.src):]` of line 254 is empty for the directory
`/s/xy`, so `syncDir` of `/s/xy` compares its entries with those of `/d`, not of
`/d/xy`: in `Sample.sameDir` it removes `/d/xy`, whose counterpart `/s/xy`
exists.  With the root written `/s` nothing is removed. -/
theorem run_unclean_source_root_removes_present :
    sameDir.fs.Stat "/s/xy".toList = .ok (.dir t0)
    ∧ sliceFrom "/s/xy".toList "/s/./".toList.length = some []
    ∧ (run { plain with src := "/s/./".toList, sync := true } sameDir).2 = .ret none
    ∧ (run { plain with src := "/s/./".toList, sync := true } sameDir).1.calls
        = [Call.removeAll "/d/xy".toList]
    ∧ (run { plain with src := "/s/./".toList, sync := true } sameDir).1.fs.find "/d/xy".toList
        = none
    ∧ (run { plain with sync := true } sameDir).1.calls = [] := by
  decide!

/-- C9, as the code behaves.  A best-effort run (`ignore` on) with sync over
`Sample.staleFile`, whose source root `/s` is a directory, with the destination
root written `/d/`.  `syncDir` computes `dstDir = filepath.Join("/d/", "")`,
which is `/d`, lists it, finds `b.txt` without counterpart in `/s`, and at line
290 evaluates `dstDir[len(a.dst):]` with `len(dstDir) = 2` and `len(a.dst) = 3`:
the slice expression panics.  The run does not return `nil`: it ends in the
panic, after the one message `sync`, without a report of the failure on the
message channel and without a visit to the next entry.  With the root written
`/d` the same run returns `nil`. -/
theorem run_best_effort_panics_on_unclean_root :
    staleFile.fs.Stat "/s".toList = .ok (.dir t0)
    ∧ Join ["/d/".toList, []] = "/d".toList
    ∧ sliceFrom "/d".toList "/d/".toList.length = none
    ∧ run { plain with dst := "/d/".toList, sync := true, ignore := true } staleFile
        = ({ staleFile with out := [Msg.words ["sync".toList, "/s".toList, "/d".toList]] },
           .crash)
    ∧ (run { plain with sync := true, ignore := true } staleFile).2 = .ret none := by
  decide!

end Xcp
